import Mathlib

/-!
Verification of the bibliographic-extraction pipeline of
`src/llm-service/app.py` (the bookworm repository).

The Python functions are shallowly embedded over `Str := List Char`:
each `def` below mirrors one Python function of `app.py` (the doc comment
names it).  Python strings are lists of characters, `re` patterns are
values of the `Re` type interpreted by a backtracking matcher with the
preference order of Python's engine (leftmost start position, alternation
left first, greedy quantifiers longest first, lazy quantifiers shortest
first, captures restored on backtracking), and Python's falsy test for a
string is equality with the empty list.
-/

set_option maxRecDepth 20000

/-- Python strings, embedded as lists of characters. -/
abbrev Str := List Char

/-- The characters of a Lean string literal, as a `Str`. -/
def chs (s : String) : Str := s.data

/-- Python's `str.isspace` set / the `\s` regex class / the split set of
`str.split()` and `str.strip()`: ASCII whitespace plus the Unicode
whitespace code points Python treats as space. -/
def pyIsSpace (c : Char) : Bool :=
  c = ' ' || c = '\t' || c = '\n' || c = '\r' || c = '\x0b' || c = '\x0c' ||
  (Char.ofNat 28 ≤ c && c ≤ Char.ofNat 31) || c = Char.ofNat 133 ||
  c = Char.ofNat 160 || c = Char.ofNat 5760 ||
  (Char.ofNat 8192 ≤ c && c ≤ Char.ofNat 8202) ||
  c = Char.ofNat 8232 || c = Char.ofNat 8233 || c = Char.ofNat 8239 ||
  c = Char.ofNat 8287 || c = Char.ofNat 12288

/-- The `\d` regex class and `str.isdigit`, modelled on the ASCII decimal
digits (the only digits the repository's OCR texts and patterns use). -/
def pyIsDigit (c : Char) : Bool := c.isDigit

/-- Python `str.lower`, modelled on the ASCII and Cyrillic alphabets (the
alphabets the pipeline's data uses). -/
def pyLower (c : Char) : Char :=
  if 'A' ≤ c && c ≤ 'Z' then Char.ofNat (c.toNat + 32)
  else if 'А' ≤ c && c ≤ 'Я' then Char.ofNat (c.toNat + 32)
  else if c = 'Ё' then 'ё'
  else c

/-- Python `str.upper`, modelled on the ASCII and Cyrillic alphabets. -/
def pyUpper (c : Char) : Char :=
  if 'a' ≤ c && c ≤ 'z' then Char.ofNat (c.toNat - 32)
  else if 'а' ≤ c && c ≤ 'я' then Char.ofNat (c.toNat - 32)
  else if c = 'ё' then 'Ё'
  else c

/-- The `\w` regex class (`re.UNICODE`), modelled on ASCII alphanumerics,
the underscore and the Cyrillic block U+0400..U+04FF. -/
def pyIsWordChar (c : Char) : Bool :=
  c.isAlphanum || c = '_' || (Char.ofNat 1024 ≤ c && c ≤ Char.ofNat 1279)

/-- `s.map pyLower`: Python `str.lower` on a whole string. -/
def pyLowerStr (s : Str) : Str := s.map pyLower

/-! ### `str.split()` / `" ".join` / `str.strip` -/

mutual

/-- Python `str.split()` (no separator): the whitespace-separated words,
scanning from between words.  `splitIn` scans from inside a word and
returns the rest of that word together with the following words. -/
def splitOut : Str → List Str
  | [] => []
  | c :: cs => if pyIsSpace c then splitOut cs
               else (c :: (splitIn cs).1) :: (splitIn cs).2

/-- See `splitOut`. -/
def splitIn : Str → Str × List Str
  | [] => ([], [])
  | c :: cs => if pyIsSpace c then ([], splitOut cs)
               else (c :: (splitIn cs).1, (splitIn cs).2)

end

/-- `' ' :: w ++ …` for each further word: the tail of `" ".join`. -/
def joinTail : List Str → Str
  | [] => []
  | w :: ws => ' ' :: (w ++ joinTail ws)

/-- Python `" ".join(words)`. -/
def joinSp : List Str → Str
  | [] => []
  | w :: ws => w ++ joinTail ws

/-- Python `" ".join(s.split())`: whitespace normalization. -/
def wsCollapse (s : Str) : Str := joinSp (splitOut s)

/-- Python `str.lstrip()` (with no argument). -/
def dropWs (s : Str) : Str := s.dropWhile pyIsSpace

/-- Python `str.rstrip()` (with no argument), by structural recursion:
a character is kept unless everything after it was dropped and it is
itself whitespace. -/
def rstrip : Str → Str
  | [] => []
  | c :: cs => if rstrip cs = [] && pyIsSpace c then [] else c :: rstrip cs

/-- Python `str.strip()` (with no argument). -/
def pyStrip (s : Str) : Str := rstrip (dropWs s)

/-- Python `needle in hay` for strings, i.e. contiguous-substring search;
`subAt` is the prefix test it iterates. -/
def subAt : Str → Str → Bool
  | [], _ => true
  | _ :: _, [] => false
  | a :: as, b :: bs => a = b && subAt as bs

/-- See `subAt`. -/
def hasSub (n : Str) : Str → Bool
  | [] => n.isEmpty
  | c :: cs => subAt n (c :: cs) || hasSub n cs

/-- Python `str.split(sep)` for a one-character separator (keeps empty
parts, as Python does). -/
def splitOnChar (sep : Char) : Str → List Str
  | [] => [[]]
  | c :: cs =>
    match splitOnChar sep cs with
    | w :: ws => if c = sep then [] :: w :: ws else (c :: w) :: ws
    | [] => if c = sep then [[], []] else [[c]]

/-- `int()` of a decimal-digit string (the only use in `app.py` is on
`\d{4}` matches). -/
def strToNat (l : Str) : Nat := l.foldl (fun a c => a * 10 + (c.toNat - '0'.toNat)) 0

/-! ### The regex engine

`app.py` uses `re.search`, `re.match`, `re.split` and `re.sub`.  The
patterns are embedded as `Re` values and interpreted by `runRe`, a
fuel-bounded backtracking matcher in continuation-passing style that
follows the preference order of Python's engine: alternatives left to
right, greedy repetition longest first, lazy repetition shortest first.
Captures are threaded functionally, so backtracking restores them. -/

/-- One item of a character class: a literal, a range, `\s` or `\d`. -/
inductive CItem where
  | one : Char → CItem
  | rng : Char → Char → CItem
  | space : CItem
  | digit : CItem

/-- Does a class item accept a character (`ci` = `re.IGNORECASE`)? -/
def itemMatch (ci : Bool) (it : CItem) (c : Char) : Bool :=
  match it with
  | .one a => c = a || (ci && pyLower c = pyLower a)
  | .rng a b => (a ≤ c && c ≤ b) ||
      (ci && ((a ≤ pyLower c && pyLower c ≤ b) || (a ≤ pyUpper c && pyUpper c ≤ b)))
  | .space => pyIsSpace c
  | .digit => pyIsDigit c

/-- Does a (possibly negated) character class accept a character? -/
def clsMatch (ci neg : Bool) (items : List CItem) (c : Char) : Bool :=
  let r := items.any (fun it => itemMatch ci it c)
  if neg then !r else r

/-- Regular expressions as `app.py` uses them.  `cls neg items` is a
character class (`neg` for `[^…]`), `rep a lo hi greedy` is `a{lo,hi}`
(`hi = none` for unbounded), `grp i a` is capture group number `i + 1`,
`bos`/`eos` are `^`/`$` (no `re.MULTILINE` is ever passed together with
an anchor), `wb` is `\b`. -/
inductive Re where
  | eps : Re
  | cls : Bool → List CItem → Re
  | seq : Re → Re → Re
  | alt : Re → Re → Re
  | rep : Re → Nat → Option Nat → Bool → Re
  | grp : Nat → Re → Re
  | bos : Re
  | eos : Re
  | wb : Re

/-- Capture spans, indexed by group number minus one. -/
abbrev Caps := List (Option (Nat × Nat))

/-- `Option.orElse` with an explicit thunk. -/
def orElseO {α : Type} (a : Option α) (b : Unit → Option α) : Option α :=
  match a with
  | some x => some x
  | none => b ()

/-- Is the character at position `i` a word character (false past the end)? -/
def wordAt (s : Str) (i : Nat) : Bool :=
  match s.get? i with
  | some c => pyIsWordChar c
  | none => false

/-- The backtracking matcher.  `runRe ci s fuel re pos caps k` tries to
match `re` at `pos`, calling the continuation `k` with the end position
and captures of each candidate in Python's preference order; the first
success wins.  Fuel bounds the recursion depth and is chosen large enough
by the entry points below.  The `p = pos` cut inside `rep` stops a
repetition that made no progress (none of the embedded patterns repeats a
possibly-empty body, so the cut is never reached on them). -/
def runRe (ci : Bool) (s : Str) : Nat → Re → Nat → Caps →
    (Nat → Caps → Option (Nat × Caps)) → Option (Nat × Caps)
  | 0, _, _, _, _ => none
  | Nat.succ fuel, re, pos, caps, k =>
    match re with
    | .eps => k pos caps
    | .cls neg items =>
      match s.get? pos with
      | some c => if clsMatch ci neg items c then k (pos + 1) caps else none
      | none => none
    | .seq a b => runRe ci s fuel a pos caps (fun p cp => runRe ci s fuel b p cp k)
    | .alt a b => orElseO (runRe ci s fuel a pos caps k)
        (fun _ => runRe ci s fuel b pos caps k)
    | .grp i a => runRe ci s fuel a pos caps (fun p cp => k p (cp.set i (some (pos, p))))
    | .bos => if pos = 0 then k pos caps else none
    | .eos =>
      if pos = s.length ∨ (pos + 1 = s.length ∧ s.get? pos = some '\n') then k pos caps
      else none
    | .wb =>
      let before := if pos = 0 then false else wordAt s (pos - 1)
      if before != wordAt s pos then k pos caps else none
    | .rep a lo hi g =>
      match lo with
      | Nat.succ lo2 =>
        runRe ci s fuel a pos caps
          (fun p cp => runRe ci s fuel (.rep a lo2 (hi.map Nat.pred) g) p cp k)
      | 0 =>
        match hi with
        | some 0 => k pos caps
        | _ =>
          let once := fun (_ : Unit) => runRe ci s fuel a pos caps
            (fun p cp => if p = pos then none
              else runRe ci s fuel (.rep a 0 (hi.map Nat.pred) g) p cp k)
          if g then orElseO (once ()) (fun _ => k pos caps)
          else orElseO (k pos caps) once

/-- Captures with `n` groups, all unset. -/
def mkCaps (n : Nat) : Caps := List.replicate n none

/-- A match: start, end, captures (as Python's match object). -/
structure MRes where
  ms : Nat
  me : Nat
  caps : Caps

/-- Fuel that bounds every backtracking depth reachable on the embedded
patterns over `s`. -/
def bigFuel (s : Str) : Nat := 400 * (s.length + 4)

/-- Try the whole pattern at one start position. -/
def tryAt (ci : Bool) (nG : Nat) (re : Re) (s : Str) (pos : Nat) : Option (Nat × Caps) :=
  runRe ci s (bigFuel s) re pos (mkCaps nG) (fun p cp => some (p, cp))

/-- Scan start positions left to right (the loop of `re.search`). -/
def searchFrom (ci : Bool) (nG : Nat) (re : Re) (s : Str) : Nat → Nat → Option MRes
  | _, 0 => none
  | pos, Nat.succ tries =>
    match tryAt ci nG re s pos with
    | some (e, cp) => some ⟨pos, e, cp⟩
    | none => if pos < s.length then searchFrom ci nG re s (pos + 1) tries else none

/-- `re.search(pattern, s)`. -/
def pySearch (ci : Bool) (nG : Nat) (re : Re) (s : Str) : Option MRes :=
  searchFrom ci nG re s 0 (s.length + 1)

/-- `re.search` starting at a given position (used by `re.sub`'s scan). -/
def searchFromPos (ci : Bool) (nG : Nat) (re : Re) (s : Str) (pos : Nat) : Option MRes :=
  searchFrom ci nG re s pos (s.length + 1 - pos)

/-- `re.match(pattern, s)`: anchored at position 0. -/
def pyMatch (ci : Bool) (nG : Nat) (re : Re) (s : Str) : Option MRes :=
  match tryAt ci nG re s 0 with
  | some (e, cp) => some ⟨0, e, cp⟩
  | none => none

/-- `s[a:b]`. -/
def sliceStr (s : Str) (a b : Nat) : Str := (s.drop a).take (b - a)

/-- `m.group(i + 1)`: `none` when the group did not participate. -/
def grpGet (s : Str) (m : MRes) (i : Nat) : Option Str :=
  match m.caps.get? i with
  | some (some (a, b)) => some (sliceStr s a b)
  | _ => none

/-- The scan of `re.sub(pattern, "", s)`: delete every non-overlapping
match, left to right (an empty match copies one character and moves on,
as Python does). -/
def subAllGo (ci : Bool) (nG : Nat) (re : Re) (s : Str) : Nat → Nat → Str
  | 0, pos => s.drop pos
  | Nat.succ fuel, pos =>
    match searchFromPos ci nG re s pos with
    | none => s.drop pos
    | some m =>
      let pre := sliceStr s pos m.ms
      if m.ms < m.me then pre ++ subAllGo ci nG re s fuel m.me
      else
        match s.get? m.ms with
        | some c => pre ++ c :: subAllGo ci nG re s fuel (m.ms + 1)
        | none => pre

/-- `re.sub(pattern, "", s)`. -/
def pySubDel (ci : Bool) (nG : Nat) (re : Re) (s : Str) : Str :=
  subAllGo ci nG re s (s.length + 2) 0

/-- `re.split(pattern, s)[0]`: the part before the first match (`s` when
there is none).  Every `re.split` of `app.py` is consumed through `[0]`,
except the sentence split of `clean_annotation`, which is embedded
structurally below. -/
def pySplitFirst (ci : Bool) (nG : Nat) (re : Re) (s : Str) : Str :=
  match pySearch ci nG re s with
  | some m => s.take m.ms
  | none => s

/-! ### The patterns of `app.py`

Each `re…` definition below transcribes one pattern string of `app.py`;
the doc comment quotes it.  Group indices are Python's group number minus
one. -/

/-- A literal character. -/
def rc (c : Char) : Re := .cls false [.one c]

/-- A sequence of literal characters. -/
def rlits (l : Str) : Re := l.foldr (fun c acc => Re.seq (rc c) acc) Re.eps

/-- A sequence of patterns. -/
def rseq (l : List Re) : Re := l.foldr Re.seq Re.eps

/-- Greedy `r*`. -/
def rstar (r : Re) : Re := .rep r 0 none true

/-- Greedy `r+`. -/
def rplus (r : Re) : Re := .rep r 1 none true

/-- Lazy `r+?`. -/
def rplusL (r : Re) : Re := .rep r 1 none false

/-- Greedy `r?`. -/
def ropt (r : Re) : Re := .rep r 0 (some 1) true

/-- `\s*`. -/
def wsStar : Re := rstar (.cls false [.space])

/-- `\s+`. -/
def wsPlus : Re := rplus (.cls false [.space])

/-- `[А-ЯЁ]`, as class items. -/
def cyrU : List CItem := [.rng 'А' 'Я', .one 'Ё']

/-- `[а-яё]`, as class items. -/
def cyrL : List CItem := [.rng 'а' 'я', .one 'ё']

/-- `[A-Z]`, as class items. -/
def latU : List CItem := [.rng 'A' 'Z']

/-- `[a-z]`, as class items. -/
def latL : List CItem := [.rng 'a' 'z']

/-- `extract_bibliographic_entry`'s pattern (re.DOTALL is passed but the
pattern has no bare dot):
`[А-ЯЁA-Z]\d+\s+(?:([А-ЯЁ][а-яё]+(?:,?\s+[А-ЯЁ][а-яё.]+)*)\s*[.—]+\s*)?([А-ЯЁ][^.—]+?)\.\s*—\s*([А-ЯЁ][а-яё]+)\s*:\s*([А-ЯЁ][а-яёА-ЯЁ\s]+?),\s*(\d{4})` -/
def reGost : Re := rseq [
  .cls false (cyrU ++ latU),
  rplus (.cls false [.digit]),
  wsPlus,
  ropt (rseq [
    .grp 0 (rseq [
      .cls false cyrU,
      rplus (.cls false cyrL),
      rstar (rseq [ropt (rc ','), wsPlus, .cls false cyrU,
        rplus (.cls false (cyrL ++ [.one '.']))])]),
    wsStar,
    rplus (.cls false [.one '.', .one '—']),
    wsStar]),
  .grp 1 (rseq [.cls false cyrU, rplusL (.cls true [.one '.', .one '—'])]),
  rc '.', wsStar, rc '—', wsStar,
  .grp 2 (rseq [.cls false cyrU, rplus (.cls false cyrL)]),
  wsStar, rc ':', wsStar,
  .grp 3 (rseq [.cls false cyrU, rplusL (.cls false (cyrL ++ cyrU ++ [CItem.space]))]),
  rc ',', wsStar,
  .grp 4 (.rep (.cls false [.digit]) 4 (some 4) true)]

/-- The first pattern of `extract_english_bibliographic_entry`:
`([A-Z][a-z]+(?:,?\s+[A-Z][a-z.]+)*)[.,]\s+([A-Z][^.:]+?)\.\s*(?:[A-Z][a-z]+)\s*:\s*([A-Z][a-zA-Z\s&]+?),\s*(\d{4})` -/
def reEng1 : Re := rseq [
  .grp 0 (rseq [.cls false latU, rplus (.cls false latL),
    rstar (rseq [ropt (rc ','), wsPlus, .cls false latU,
      rplus (.cls false (latL ++ [.one '.']))])]),
  .cls false [.one '.', .one ','],
  wsPlus,
  .grp 1 (rseq [.cls false latU, rplusL (.cls true [.one '.', .one ':'])]),
  rc '.', wsStar,
  .cls false latU, rplus (.cls false latL),
  wsStar, rc ':', wsStar,
  .grp 2 (rseq [.cls false latU,
    rplusL (.cls false (latL ++ latU ++ [CItem.space, .one '&']))]),
  rc ',', wsStar,
  .grp 3 (.rep (.cls false [.digit]) 4 (some 4) true)]

/-- The second pattern of `extract_english_bibliographic_entry`:
`([A-Z][^/]+?)\s*/\s*([A-Z][a-z]+(?:,?\s+[A-Z][a-z.]+)*)\.\s*[-—]\s*(?:[A-Z][a-z]+)\s*:\s*([A-Z][a-zA-Z\s&]+?),\s*(\d{4})` -/
def reEng2 : Re := rseq [
  .grp 0 (rseq [.cls false latU, rplusL (.cls true [.one '/'])]),
  wsStar, rc '/', wsStar,
  .grp 1 (rseq [.cls false latU, rplus (.cls false latL),
    rstar (rseq [ropt (rc ','), wsPlus, .cls false latU,
      rplus (.cls false (latL ++ [.one '.']))])]),
  rc '.', wsStar,
  .cls false [.one '-', .one '—'],
  wsStar,
  .cls false latU, rplus (.cls false latL),
  wsStar, rc ':', wsStar,
  .grp 2 (rseq [.cls false latU,
    rplusL (.cls false (latL ++ latU ++ [CItem.space, .one '&']))]),
  rc ',', wsStar,
  .grp 3 (.rep (.cls false [.digit]) 4 (some 4) true)]

/-- `extract_author`'s first fallback pattern (author right before a
catalog code):
`([А-ЯЁ][а-яё]+\s+[А-ЯЁA-Z]\.\s?[А-ЯЁA-Z]\.)\s*[\n\s]+[А-ЯЁA-Z][\d-]+\s` -/
def reAuthCat : Re := rseq [
  .grp 0 (rseq [.cls false cyrU, rplus (.cls false cyrL), wsPlus,
    .cls false (cyrU ++ latU), rc '.', .rep (.cls false [.space]) 0 (some 1) true,
    .cls false (cyrU ++ latU), rc '.']),
  wsStar,
  rplus (.cls false [.one '\n', .space]),
  .cls false (cyrU ++ latU),
  rplus (.cls false [.digit, .one '-']),
  .cls false [.space]]

/-- `extract_author`'s second fallback pattern:
`[А-ЯЁ][а-яё]+\s+[А-ЯЁA-Z]\.\s?[А-ЯЁA-Z]\.` -/
def reAuthPlain : Re := rseq [.cls false cyrU, rplus (.cls false cyrL), wsPlus,
  .cls false (cyrU ++ latU), rc '.', .rep (.cls false [.space]) 0 (some 1) true,
  .cls false (cyrU ++ latU), rc '.']

/-- `extract_author`'s third fallback pattern:
`[А-ЯЁ][а-яё]+,\s+[А-ЯЁ][а-яё]+(?:\s+[А-ЯЁ][а-яё]+)?` -/
def reAuthComma : Re := rseq [.cls false cyrU, rplus (.cls false cyrL), rc ',', wsPlus,
  .cls false cyrU, rplus (.cls false cyrL),
  ropt (rseq [wsPlus, .cls false cyrU, rplus (.cls false cyrL)])]

/-- `extract_author`'s fourth fallback pattern (copyright line):
`©\s+([А-ЯЁ][а-яё]+\s+[А-ЯЁA-Z]\.\s?[А-ЯЁA-Z]\.)` -/
def reAuthCopy : Re := rseq [rc '©', wsPlus,
  .grp 0 (rseq [.cls false cyrU, rplus (.cls false cyrL), wsPlus,
    .cls false (cyrU ++ latU), rc '.', .rep (.cls false [.space]) 0 (some 1) true,
    .cls false (cyrU ++ latU), rc '.'])]

/-- `extract_isbn`'s pattern (re.IGNORECASE):
`ISBN\s*[:]? ?([0-9Xx\-\–\—\−\s]+?)(?:\s*[\(;,]|$)` -/
def reIsbn : Re := rseq [
  rlits (chs "ISBN"),
  wsStar,
  ropt (rc ':'),
  ropt (rc ' '),
  .grp 0 (rplusL (.cls false [.rng '0' '9', .one 'X', .one 'x', .one '-',
    .one '–', .one '—', .one '−', .space])),
  .alt (rseq [wsStar, .cls false [.one '(', .one ';', .one ',']]) Re.eos]

/-- `extract_udk`'s pattern: `УДК\s*[:.]?\s*([\d.\s:()+=/\-]+)` -/
def reUdk : Re := rseq [rlits (chs "УДК"), wsStar,
  ropt (.cls false [.one ':', .one '.']), wsStar,
  .grp 0 (rplus (.cls false [.digit, .one '.', .space, .one ':', .one '(',
    .one ')', .one '+', .one '=', .one '/', .one '-']))]

/-- `extract_bbk`'s pattern:
`ББК\s*[:.]?\s*([А-ЯЁа-яёA-Za-z\d][\d\(\)=:,А-ЯЁа-яёA-Za-z.\-–\s]+)` -/
def reBbk : Re := rseq [rlits (chs "ББК"), wsStar,
  ropt (.cls false [.one ':', .one '.']), wsStar,
  .grp 0 (rseq [.cls false (cyrU ++ cyrL ++ latU ++ latL ++ [.digit]),
    rplus (.cls false ([CItem.digit, .one '(', .one ')', .one '=', .one ':', .one ','] ++
      cyrU ++ cyrL ++ latU ++ latL ++ [.one '.', .one '-', .one '–', CItem.space]))])]

/-- `extract_bbk`'s truncation pattern: `\n|(?:\s{2,})` -/
def reNlOrDblWs : Re := .alt (rc '\n') (.rep (.cls false [.space]) 2 none true)

/-- `extract_title`'s fallback pattern: `[А-ЯЁ]\d+\s+([А-ЯЁ][^.—]+?)\.?\s*[—\-]` -/
def reTitleFb : Re := rseq [.cls false cyrU, rplus (.cls false [.digit]), wsPlus,
  .grp 0 (rseq [.cls false cyrU, rplusL (.cls true [.one '.', .one '—'])]),
  ropt (rc '.'), wsStar, .cls false [.one '—', .one '-']]

/-- `extract_publisher`'s first fallback pattern:
`Москва\s*:\s*([А-ЯЁ][а-яёА-ЯЁ\s]+?),\s*\d{4}` -/
def rePub1 : Re := rseq [rlits (chs "Москва"), wsStar, rc ':', wsStar,
  .grp 0 (rseq [.cls false cyrU, rplusL (.cls false (cyrL ++ cyrU ++ [CItem.space]))]),
  rc ',', wsStar, .rep (.cls false [.digit]) 4 (some 4) true]

/-- `extract_publisher`'s second fallback pattern:
`ИЗДАТЕЛЬСТВО\s*\n?\s*([А-ЯЁ][А-ЯЁа-яё\s]+)` -/
def rePub2 : Re := rseq [rlits (chs "ИЗДАТЕЛЬСТВО"), wsStar, ropt (rc '\n'), wsStar,
  .grp 0 (rseq [.cls false cyrU, rplus (.cls false (cyrU ++ cyrL ++ [CItem.space]))])]

/-- `extract_year`'s fallback pattern (re.IGNORECASE):
`(?:Москва|СПб|издательство)[^,]*,\s*(\d{4})` -/
def reYearFb : Re := rseq [
  .alt (rlits (chs "Москва")) (.alt (rlits (chs "СПб")) (rlits (chs "издательство"))),
  rstar (.cls true [.one ',']),
  rc ',', wsStar,
  .grp 0 (.rep (.cls false [.digit]) 4 (some 4) true)]

/-- The subtitle split of `extract_bibliographic_entry`: `\s*[:/]\s*` -/
def reColonSlash : Re := rseq [wsStar, .cls false [.one ':', .one '/'], wsStar]

/-- The shelf-code strip of `normalize_author_title`: `^[А-ЯЁA-Z][\s\-]*\d+\s+` -/
def reShelf : Re := rseq [.bos, .cls false (cyrU ++ latU),
  rstar (.cls false [.space, .one '-']), rplus (.cls false [.digit]), wsPlus]

/-- The attribution split of `normalize_author_title`: `\s*/\s*` -/
def reSlashSep : Re := rseq [wsStar, rc '/', wsStar]

/-- The publisher-tail split of `normalize_author_title`: `\.\s*—\s*` -/
def reDotDash : Re := rseq [rc '.', wsStar, rc '—', wsStar]

/-- The subtitle split of `normalize_author_title` and of `extract_title`'s
fallback: `\s*:\s*` -/
def reColonSep : Re := rseq [wsStar, rc ':', wsStar]

/-- The embedded-author pattern of `normalize_author_title`:
`^([А-ЯЁ][а-яё]+),\s*([А-ЯЁ][а-яё]+)\.\s*[—-]\s*(.+)` (a bare `.` without
re.DOTALL matches everything except a newline) -/
def reEmbAuth : Re := rseq [.bos,
  .grp 0 (rseq [.cls false cyrU, rplus (.cls false cyrL)]),
  rc ',', wsStar,
  .grp 1 (rseq [.cls false cyrU, rplus (.cls false cyrL)]),
  rc '.', wsStar, .cls false [.one '—', .one '-'], wsStar,
  .grp 2 (rplus (.cls true [.one '\n']))]

/-- `finalize`'s ISBN truncation pattern: `\s*[\(;,]` -/
def reParen : Re := rseq [wsStar, .cls false [.one '(', .one ';', .one ',']]

/-- `normalize_old_cyrillic`'s pattern `Ъ\b`. -/
def reHardU : Re := rseq [rc 'Ъ', .wb]

/-- `normalize_old_cyrillic`'s pattern `ъ\b`. -/
def reHardL : Re := rseq [rc 'ъ', .wb]

/-! ### The deterministic extractors of `app.py` -/

/-- The dictionary `extract_english_bibliographic_entry` returns. -/
structure EngEntry where
  author : Str
  title : Str
  publisher : Str
  year : Nat
deriving DecidableEq

/-- The dictionary `extract_bibliographic_entry` returns (`author` may be
Python `None`). -/
structure GostEntry where
  author : Option Str
  title : Str
  publisher : Str
  year : Nat
deriving DecidableEq

/-- `normalize_author`: `"Фамилия, Имя …"` becomes the first two
comma-separated parts, stripped and joined with one space. -/
def normalize_author (a : Str) : Str :=
  if a.contains ',' then
    let parts := (splitOnChar ',' a).map pyStrip
    (parts.getD 0 []) ++ ' ' :: parts.getD 1 []
  else a

/-- The field assignment both branches of
`extract_english_bibliographic_entry` perform on a match: author first
unless the whole match contains a `/`. -/
def engFromMatch (ocr : Str) (m : MRes) : EngEntry :=
  let whole := sliceStr ocr m.ms m.me
  let g0 := pyStrip ((grpGet ocr m 0).getD [])
  let g1 := pyStrip ((grpGet ocr m 1).getD [])
  let g2 := pyStrip ((grpGet ocr m 2).getD [])
  let g3 := (grpGet ocr m 3).getD []
  if whole.contains '/' then ⟨g1, g0, g2, strToNat g3⟩
  else ⟨g0, g1, g2, strToNat g3⟩

/-- `extract_english_bibliographic_entry`: the two citation patterns tried
in order (the trailing copyright-line block of the Python function is a
comment). -/
def extract_english_bibliographic_entry (ocr : Str) : Option EngEntry :=
  match pySearch false 4 reEng1 ocr with
  | some m => some (engFromMatch ocr m)
  | none =>
    match pySearch false 4 reEng2 ocr with
    | some m => some (engFromMatch ocr m)
    | none => none

/-- `extract_bibliographic_entry`: the GOST citation parser. -/
def extract_bibliographic_entry (ocr : Str) : Option GostEntry :=
  match pySearch false 5 reGost ocr with
  | some m =>
    let author1 : Option Str :=
      match grpGet ocr m 0 with
      | some g => if g = [] then none else some (pyStrip g)
      | none => none
    let author2 : Option Str :=
      match author1 with
      | some a => if a = [] then some a else some (normalize_author a)
      | none => none
    let title0 := pyStrip ((grpGet ocr m 1).getD [])
    let title := pyStrip (pySplitFirst false 0 reColonSlash title0)
    let publisher := pyStrip ((grpGet ocr m 3).getD [])
    let year := strToNat ((grpGet ocr m 4).getD [])
    some ⟨author2, title, publisher, year⟩
  | none => none

/-- `author.replace('©', '')`. -/
def remCopySign (l : Str) : Str := l.filter (fun c => c ≠ '©')

/-- The four fallback patterns of `extract_author`, tried in order; the
matched author is `group(1)` when the pattern has a group (`m.lastindex`
non-null), else `group(0)`, then `©` is removed, the result stripped and
comma-normalized. -/
def author_fb (ocr : Str) : Str :=
  match pySearch false 1 reAuthCat ocr with
  | some m => normalize_author (pyStrip (remCopySign ((grpGet ocr m 0).getD [])))
  | none =>
    match pySearch false 0 reAuthPlain ocr with
    | some m => normalize_author (pyStrip (remCopySign (sliceStr ocr m.ms m.me)))
    | none =>
      match pySearch false 0 reAuthComma ocr with
      | some m => normalize_author (pyStrip (remCopySign (sliceStr ocr m.ms m.me)))
      | none =>
        match pySearch false 1 reAuthCopy ocr with
        | some m => normalize_author (pyStrip (remCopySign ((grpGet ocr m 0).getD [])))
        | none => chs "unknown"

/-- The GOST step of `extract_author` (`if biblio and biblio['author']`). -/
def extract_author_gost (ocr : Str) : Str :=
  match extract_bibliographic_entry ocr with
  | some b =>
    match b.author with
    | some a => if a = [] then author_fb ocr else a
    | none => author_fb ocr
  | none => author_fb ocr

/-- `extract_author`: English parser, then GOST parser, then the fallback
patterns. -/
def extract_author (ocr : Str) : Str :=
  match extract_english_bibliographic_entry ocr with
  | some e => if e.author = [] then extract_author_gost ocr else e.author
  | none => extract_author_gost ocr

/-- `extract_title`: English parser, then GOST parser, then the
catalog-entry fallback (whose match is stripped and truncated at the
first colon). -/
def extract_title (ocr : Str) : Str :=
  match extract_english_bibliographic_entry ocr with
  | some e => e.title
  | none =>
    match extract_bibliographic_entry ocr with
    | some b => b.title
    | none =>
      match pySearch false 1 reTitleFb ocr with
      | some m => pySplitFirst false 0 reColonSep (pyStrip ((grpGet ocr m 0).getD []))
      | none => chs "unknown"

/-- `extract_publisher`: English parser, then GOST parser, then the two
fallback patterns. -/
def extract_publisher (ocr : Str) : Str :=
  match extract_english_bibliographic_entry ocr with
  | some e => e.publisher
  | none =>
    match extract_bibliographic_entry ocr with
    | some b => b.publisher
    | none =>
      match pySearch false 1 rePub1 ocr with
      | some m => pyStrip ((grpGet ocr m 0).getD [])
      | none =>
        match pySearch false 1 rePub2 ocr with
        | some m => pyStrip ((grpGet ocr m 0).getD [])
        | none => chs "unknown"

/-- `extract_year`: English parser, then GOST parser, then the
place-comma-year fallback; 0 when nothing matches.  Every year the Python
function returns is `int()` of a `\d{4}` match, hence a natural number. -/
def extract_year (ocr : Str) : Nat :=
  match extract_english_bibliographic_entry ocr with
  | some e => e.year
  | none =>
    match extract_bibliographic_entry ocr with
    | some b => b.year
    | none =>
      match pySearch true 1 reYearFb ocr with
      | some m => strToNat ((grpGet ocr m 0).getD [])
      | none => 0

/-- `extract_isbn`: locate the marker, keep only `[0-9Xx]` of the captured
run, uppercase, and accept exactly 10 characters (digits, or a trailing X
after 9 digits) or exactly 13 digits. -/
def extract_isbn (ocr : Str) : Str :=
  match pySearch true 1 reIsbn ocr with
  | none => chs "unknown"
  | some m =>
    let raw := (((grpGet ocr m 0).getD []).filter
      (fun c => pyIsDigit c || c = 'X' || c = 'x')).map pyUpper
    if raw.length = 10 then
      if raw.getLastD ' ' = 'X' && raw.dropLast.all pyIsDigit then raw
      else if raw.all pyIsDigit then raw
      else chs "unknown"
    else if raw.length = 13 && raw.all pyIsDigit then raw
    else chs "unknown"

/-- `re.sub(r'\s+', ' ', x)`: every whitespace run becomes one space. -/
def subWsRun : Str → Str
  | [] => []
  | [c] => if pyIsSpace c then [' '] else [c]
  | a :: b :: r =>
    if pyIsSpace a && pyIsSpace b then subWsRun (b :: r)
    else (if pyIsSpace a then ' ' else a) :: subWsRun (b :: r)

/-- `extract_udk`: the captured run, stripped, with whitespace runs
collapsed to single spaces. -/
def extract_udk (ocr : Str) : Str :=
  match pySearch false 1 reUdk ocr with
  | some m => subWsRun (pyStrip ((grpGet ocr m 0).getD []))
  | none => chs "unknown"

/-- `extract_bbk`: the captured run, stripped, truncated at the first
newline or run of two or more spaces. -/
def extract_bbk (ocr : Str) : Str :=
  match pySearch false 1 reBbk ocr with
  | some m => pySplitFirst false 0 reNlOrDblWs (pyStrip ((grpGet ocr m 0).getD []))
  | none => chs "unknown"

/-! ### The record and the normalization chain

The parsed-JSON dictionary that flows through the normalizers is modelled
as a record of the eight schema fields.  A missing or falsy string entry
and the empty string are treated identically by every step of the chain
(both are falsy, `normalize_strings` maps `""` to `""`), so string fields
are plain `Str` with `[]` for absent.  `year` is `Option Int`: `none` for
a missing or non-integer entry (`finalize` turns it into 0). -/

structure Rec where
  title : Str
  author : Str
  publisher : Str
  year : Option Int
  isbn : Str
  udk : Str
  bbk : Str
  annot : Str
deriving DecidableEq

/-- The garbage keyword list of `normalize_author_title`. -/
def garbageKeywords : List Str :=
  [chs "copyright", chs "trademark", chs "reserved", chs "indicia", chs "rights reserved"]

/-- The garbage-title rejection step of `normalize_author_title`: a
non-empty title whose lowercase form contains one of the keywords becomes
`"unknown"`. -/
def nat_garbage (d : Rec) : Rec :=
  if d.title ≠ [] ∧ garbageKeywords.any (fun kw => hasSub kw (pyLowerStr d.title)) then
    { d with title := chs "unknown" }
  else d

/-- The title de-contamination step of `normalize_author_title`: strip a
leading shelf code, cut at `" / "`, at `". — "` and at the first colon,
then strip. -/
def nat_decontam (d : Rec) : Rec :=
  if d.title ≠ [] ∧ d.title ≠ chs "unknown" then
    let t := pySubDel false 0 reShelf d.title
    let t := pySplitFirst false 0 reSlashSep t
    let t := pySplitFirst false 0 reDotDash t
    let t := pySplitFirst false 0 reColonSep t
    { d with title := pyStrip t }
  else d

/-- The embedded-author step of `normalize_author_title`: a title still of
shape `Surname, Given. — Rest` (em-dash or hyphen) moves Surname Given
into the author and keeps Rest. -/
def embMatch (t : Str) : Option (Str × Str × Str) :=
  match pyMatch false 3 reEmbAuth t with
  | some m =>
    some ((grpGet t m 0).getD [], (grpGet t m 1).getD [], (grpGet t m 2).getD [])
  | none => none

/-- The embedded-author step itself: on a match, Surname and Given move
into the author (joined with one space) and the title becomes the
stripped Rest. -/
def nat_embed (d : Rec) : Rec :=
  match embMatch d.title with
  | some (sn, gv, rest) => { d with author := sn ++ ' ' :: gv, title := pyStrip rest }
  | none => d

/-- `normalize_author_title`: the three steps in the order of `app.py`. -/
def normalize_author_title (d : Rec) : Rec :=
  nat_embed (nat_decontam (nat_garbage d))

/-- `normalize_strings`: every string value of the dictionary collapsed to
single-line single-spaced form (`year` is not a string). -/
def normalize_strings (d : Rec) : Rec :=
  { d with
    title := wsCollapse d.title
    author := wsCollapse d.author
    publisher := wsCollapse d.publisher
    isbn := wsCollapse d.isbn
    udk := wsCollapse d.udk
    bbk := wsCollapse d.bbk
    annot := wsCollapse d.annot }

/-- The character replacements of `normalize_old_cyrillic`. -/
def mapOldCyr (c : Char) : Char :=
  if c = 'Ѣ' then 'Е' else if c = 'ѣ' then 'е'
  else if c = 'І' then 'И' else if c = 'і' then 'и'
  else if c = 'Ѵ' then 'И' else if c = 'ѵ' then 'и'
  else if c = 'Ѳ' then 'Ф' else if c = 'ѳ' then 'ф'
  else c

/-- `normalize_old_cyrillic`: pre-1918 letters to modern ones, then the
end-of-word hard signs removed. -/
def normalize_old_cyrillic (t : Str) : Str :=
  if t = [] then t
  else pySubDel false 0 reHardL (pySubDel false 0 reHardU (t.map mapOldCyr))

/-- `normalize_old_cyrillic_data`: applied to title, author and publisher
when the value is truthy and not the sentinel. -/
def normalize_old_cyrillic_data (d : Rec) : Rec :=
  let f := fun (v : Str) => if v ≠ [] ∧ v ≠ chs "unknown" then normalize_old_cyrillic v else v
  { d with title := f d.title, author := f d.author, publisher := f d.publisher }

/-! ### `clean_annotation`

`re.split(r'([.!?])', text)` produces `chunk, delim, …, chunk` with the
single-character delimiters kept; the loop pairs each chunk with its
delimiter and drops the final chunk.  `parseSent` builds those pairs and
the final chunk directly. -/

/-- Sentence terminators: the class `[.!?]`. -/
def isTerm (c : Char) : Bool := c = '.' || c = '!' || c = '?'

/-- The (chunk, delimiter) pairs and the trailing chunk of
`re.split(r'([.!?])', s)`. -/
def parseSent : Str → List (Str × Char) × Str
  | [] => ([], [])
  | c :: cs =>
    let r := parseSent cs
    if isTerm c then (([], c) :: r.1, r.2)
    else
      match r.1 with
      | (ch, d) :: ps => ((c :: ch, d) :: ps, r.2)
      | [] => ([], c :: r.2)

/-- The loop of `clean_annotation`: keep the first occurrence of each full
sentence (`seen` is the set built so far). -/
def dedupSeen (seen : List Str) : List Str → List Str
  | [] => []
  | x :: xs => if x ∈ seen then dedupSeen seen xs else x :: dedupSeen (x :: seen) xs

/-- `clean_annotation`: falsy input gives the sentinel; otherwise collapse
whitespace, split into (chunk, terminator) sentences, strip each chunk,
drop repeated sentences and rejoin with single spaces. -/
def cleanAnn (t : Str) : Str :=
  if t = [] then chs "unknown"
  else
    let t1 := wsCollapse t
    let sents := (parseSent t1).1.map (fun p => pyStrip p.1 ++ [p.2])
    joinSp (dedupSeen [] sents)

/-- `normalize_classification`: falsy or (lowercased) `"unknown"` gives the
sentinel, else all whitespace is removed. -/
def normalize_classification (code : Str) : Str :=
  if code = [] ∨ pyLowerStr code = chs "unknown" then chs "unknown"
  else code.filter (fun c => !pyIsSpace c)

/-- `finalize`'s ISBN cleaning: truncate at the first `(`, `;` or `,`,
strip, keep only digits, `X`/`x` and hyphens, uppercase. -/
def isbnClean (v : Str) : Str :=
  ((pyStrip (pySplitFirst false 0 reParen v)).filter
    (fun c => pyIsDigit c || c = 'X' || c = 'x' || c = '-')).map pyUpper

/-- `finalize`'s ISBN validation string: the cleaned value without the
hyphens (`re.sub(r'[^0-9Xx]', '', clean_isbn).upper()`). -/
def isbnDigits (v : Str) : Str :=
  (v.filter (fun c => pyIsDigit c || c = 'X' || c = 'x')).map pyUpper

/-- The 10-or-13 test of `finalize` on the digits-only string. -/
def isbnCheck (dg : Str) : Bool :=
  if dg.length = 10 then
    dg.all pyIsDigit || (dg.getLastD ' ' = 'X' && dg.dropLast.all pyIsDigit)
  else dg.length = 13 && dg.all pyIsDigit

/-- The ISBN re-validation branch of `finalize` (for a value that is not
the sentinel). -/
def isbnReval (v : Str) : Str :=
  let cl := isbnClean v
  if isbnCheck (isbnDigits cl) then cl else chs "unknown"

/-- `finalize`: falsy title/author/publisher/annotation become the
sentinel, a non-integer year becomes 0, absent or sentinel ISBN/UDK/BBK
fall back to the hints, classifications are whitespace-stripped, the ISBN
is re-validated, and the annotation is cleaned. -/
def finalize (d : Rec) (isbn_hint udk_hint bbk_hint : Str) : Rec :=
  let title := if d.title = [] then chs "unknown" else d.title
  let author := if d.author = [] then chs "unknown" else d.author
  let publisher := if d.publisher = [] then chs "unknown" else d.publisher
  let annot0 := if d.annot = [] then chs "unknown" else d.annot
  let year : Int := match d.year with | some n => n | none => 0
  let isbn0 := if d.isbn = [] ∨ d.isbn = chs "unknown" then isbn_hint else d.isbn
  let udk0 := if d.udk = [] ∨ d.udk = chs "unknown" then udk_hint else d.udk
  let bbk0 := if d.bbk = [] ∨ d.bbk = chs "unknown" then bbk_hint else d.bbk
  let isbn1 := if isbn0 = chs "unknown" then isbn0 else isbnReval isbn0
  { title := title
    author := author
    publisher := publisher
    year := some year
    isbn := isbn1
    udk := normalize_classification udk0
    bbk := normalize_classification bbk0
    annot := cleanAnn annot0 }

/-- The normalization chain `extract_metadata_with_llm` applies to a
record (model output or hints-only fallback):
`normalize_author_title`, `normalize_strings`,
`normalize_old_cyrillic_data`, `finalize`. -/
def normalizeChain (d : Rec) (isbn_hint udk_hint bbk_hint : Str) : Rec :=
  finalize (normalize_old_cyrillic_data (normalize_strings (normalize_author_title d)))
    isbn_hint udk_hint bbk_hint

/-- The OCR-text combination at the top of `extract_metadata_with_llm`:
`ocr_main + "\n" + ocr_eng if ocr_eng else ocr_main`. -/
def combineOcr (ocr_main ocr_eng : Str) : Str :=
  if ocr_eng ≠ [] then ocr_main ++ '\n' :: ocr_eng else ocr_main

/-- The hints-only record: every deterministic hint in its field and the
annotation sentinel. -/
def hintsOnlyRec (ocr_text : Str) : Rec :=
  { title := extract_title ocr_text
    author := extract_author ocr_text
    publisher := extract_publisher ocr_text
    year := some (extract_year ocr_text : Int)
    isbn := extract_isbn ocr_text
    udk := extract_udk ocr_text
    bbk := extract_bbk ocr_text
    annot := chs "unknown" }

/-- The dictionary the fallback branch of `extract_metadata_with_llm`
builds, with the redundant sentinel conditionals written out as in the
Python source. -/
def fallback_data (ocr_text : Str) : Rec :=
  let author_hint := extract_author ocr_text
  let isbn_hint := extract_isbn ocr_text
  let udk_hint := extract_udk ocr_text
  let bbk_hint := extract_bbk ocr_text
  let title_hint := extract_title ocr_text
  let publisher_hint := extract_publisher ocr_text
  let year_hint := extract_year ocr_text
  { title := if title_hint ≠ chs "unknown" then title_hint else chs "unknown"
    author := if author_hint ≠ chs "unknown" then author_hint else chs "unknown"
    publisher := if publisher_hint ≠ chs "unknown" then publisher_hint else chs "unknown"
    year := some (if year_hint > 0 then (year_hint : Int) else 0)
    isbn := if isbn_hint ≠ chs "unknown" then isbn_hint else chs "unknown"
    udk := if udk_hint ≠ chs "unknown" then udk_hint else chs "unknown"
    bbk := if bbk_hint ≠ chs "unknown" then bbk_hint else chs "unknown"
    annot := chs "unknown" }

/-- The `except` branch of `extract_metadata_with_llm` (the model call
failed): the hints-only dictionary through the normalization chain, with
the hints recomputed from the combined OCR text exactly as the Python
function does. -/
def extract_metadata_with_llm_fallback (ocr_main ocr_eng : Str) : Rec :=
  let ocr_text := combineOcr ocr_main ocr_eng
  normalizeChain (fallback_data ocr_text)
    (extract_isbn ocr_text) (extract_udk ocr_text) (extract_bbk ocr_text)

/-! ### The `/extract` endpoint -/

/-- The cover record (`extract_cover_metadata` returns title and author
only; an absent cover region contributes the empty dictionary, whose
`.get(…, "unknown")` reads are the two sentinels). -/
structure CoverPair where
  title : Str
  author : Str
deriving DecidableEq

/-- The merge block of `extract_metadata` (lines 851-867): info-page
values win, the cover record fills a missing info record, and an
"unknown" title or author is replaced by a known cover value. -/
def merge_data (infoOpt : Option Rec) (cover : CoverPair) : Rec :=
  let base : Rec := {
    title := (match infoOpt with | some i => i.title | none => cover.title)
    author := (match infoOpt with | some i => i.author | none => cover.author)
    publisher := (match infoOpt with | some i => i.publisher | none => chs "unknown")
    year := (match infoOpt with | some i => i.year | none => some 0)
    isbn := (match infoOpt with | some i => i.isbn | none => chs "unknown")
    udk := (match infoOpt with | some i => i.udk | none => chs "unknown")
    bbk := (match infoOpt with | some i => i.bbk | none => chs "unknown")
    annot := (match infoOpt with | some i => i.annot | none => chs "unknown") }
  let b1 := if base.title = chs "unknown" ∧ cover.title ≠ chs "unknown" then
    { base with title := cover.title } else base
  if b1.author = chs "unknown" ∧ cover.author ≠ chs "unknown" then
    { b1 with author := cover.author } else b1

/-- A Python exception as the endpoint's handler sees it (`fastapi`'s
`HTTPException` is a subclass of `Exception`, and `str(e)` of one is
`"{status_code}: {detail}"`). -/
inductive PyExc where
  | http : Nat → Str → PyExc
deriving DecidableEq

/-- `str(e)` for an `HTTPException`. -/
def excStr : PyExc → Str
  | .http code detail => chs (toString code) ++ ':' :: ' ' :: detail

/-- The response record: the metadata plus the derived `authors` list. -/
structure FinalRec where
  record : Rec
  authors : List Str
deriving DecidableEq

/-- The `try` body of the `extract_metadata` endpoint, shallowly: the OCR
texts of the cover and info regions are the inputs (the recognition
engine is external), and the two model-backed extractions are function
parameters.  A request whose regions produced only blank text raises
`HTTPException(400, "No OCR text")` inside the `try`. -/
def endpoint_body (ocr_cover ocr_info : Str) (coverFn : Str → CoverPair)
    (infoFn : Str → Rec) : Except PyExc FinalRec :=
  if pyStrip ocr_cover = [] ∧ pyStrip ocr_info = [] then
    .error (.http 400 (chs "No OCR text"))
  else
    let coverData := if pyStrip ocr_cover ≠ [] then coverFn ocr_cover
      else ⟨chs "unknown", chs "unknown"⟩
    let infoData := if pyStrip ocr_info ≠ [] then some (infoFn ocr_info) else none
    let d := merge_data infoData coverData
    .ok ⟨d, if d.author ≠ chs "unknown" then [d.author] else []⟩

/-- The whole `extract_metadata` endpoint: its blanket
`except Exception as e: raise HTTPException(500, str(e))` catches every
exception raised in the body - including the endpoint's own
`HTTPException(400)` - and re-raises it with status 500. -/
def extract_metadata (ocr_cover ocr_info : Str) (coverFn : Str → CoverPair)
    (infoFn : Str → Rec) : Except PyExc FinalRec :=
  match endpoint_body ocr_cover ocr_info coverFn infoFn with
  | .ok v => .ok v
  | .error e => .error (.http 500 (excStr e))

/-! ### Helper lemmas -/

/-- A valid ISBN shape as `extract_isbn` and `finalize` accept it: exactly
ten characters that are all digits or nine digits and a final X, or
exactly thirteen digits. -/
def validIsbn (r : Str) : Prop :=
  (r.length = 10 ∧ (r.all pyIsDigit = true ∨
    (r.getLastD ' ' = 'X' ∧ r.dropLast.all pyIsDigit = true))) ∨
  (r.length = 13 ∧ r.all pyIsDigit = true)

theorem contains_eq_false_of_all_digit (r : Str) (h : r.all pyIsDigit = true) :
    r.contains '-' = false := by
  rw [List.contains_eq_any_beq]
  rw [List.all_eq_true] at h
  by_contra hc
  rw [Bool.not_eq_false, List.any_eq_true] at hc
  obtain ⟨c, hc1, hc2⟩ := hc
  have := h c hc1
  rw [beq_iff_eq] at hc2
  subst hc2
  simp [pyIsDigit] at this

theorem contains_eq_false_of_shape (r : Str) (hne : r ≠ [])
    (h : r.getLastD ' ' = 'X' ∧ r.dropLast.all pyIsDigit = true) :
    r.contains '-' = false := by
  rw [List.contains_eq_any_beq]
  by_contra hc
  rw [Bool.not_eq_false, List.any_eq_true] at hc
  obtain ⟨c, hc1, hc2⟩ := hc
  rw [beq_iff_eq] at hc2
  subst hc2
  obtain ⟨h1, h2⟩ := h
  rw [List.all_eq_true] at h2
  have hsplit := List.dropLast_append_getLast hne
  rw [List.getLastD_eq_getLast?, List.getLast?_eq_getLast r hne] at h1
  simp only [Option.getD_some] at h1
  rw [← hsplit] at hc1
  rcases List.mem_append.mp hc1 with hmem | hmem
  · have := h2 _ hmem
    simp [pyIsDigit] at this
  · have hdl : '-' = List.getLast r hne := List.mem_singleton.mp hmem
    rw [← hdl] at h1
    exact absurd h1 (by decide)

/-- The shape of every `extract_isbn` result: the sentinel, or a valid
hyphen-free ISBN string. -/
theorem extract_isbn_shape (s : Str) :
    extract_isbn s = chs "unknown" ∨
      (validIsbn (extract_isbn s) ∧ (extract_isbn s).contains '-' = false) := by
  unfold extract_isbn
  cases h : pySearch true 1 reIsbn s with
  | none => left; rfl
  | some m =>
    simp only
    set raw := (((grpGet s m 0).getD []).filter
      (fun c => pyIsDigit c || c = 'X' || c = 'x')).map pyUpper with hraw
    by_cases h10 : raw.length = 10
    · simp only [h10, if_true]
      by_cases hX : raw.getLastD ' ' = 'X' && raw.dropLast.all pyIsDigit
      · rw [if_pos hX]
        right
        rw [Bool.and_eq_true] at hX
        have hne : raw ≠ [] := by
          intro hnil; rw [hnil] at h10; simp at h10
        refine ⟨Or.inl ⟨h10, Or.inr ⟨?_, hX.2⟩⟩, contains_eq_false_of_shape raw hne ⟨?_, hX.2⟩⟩
        · exact of_decide_eq_true hX.1
        · exact of_decide_eq_true hX.1
      · rw [if_neg hX]
        by_cases hall : raw.all pyIsDigit = true
        · rw [if_pos hall]
          exact Or.inr ⟨Or.inl ⟨h10, Or.inl hall⟩, contains_eq_false_of_all_digit raw hall⟩
        · rw [if_neg hall]; left; rfl
    · rw [if_neg h10]
      by_cases h13 : raw.length = 13 && raw.all pyIsDigit
      · rw [if_pos h13]
        rw [Bool.and_eq_true] at h13
        exact Or.inr ⟨Or.inr ⟨of_decide_eq_true h13.1, h13.2⟩,
          contains_eq_false_of_all_digit raw h13.2⟩
      · rw [if_neg h13]; left; rfl

/-! ### C4: the `extract_isbn` contract -/

/-- C4 (corrected), counterexample: an input that contains
`"ISBN 978-5-17-123456-7"` verbatim but yields the sentinel, because the
captured run is followed by further text rather than by `(`, `;`, `,` or
the end of the string; the claim says such an input yields
`"9785171234567"`. -/
theorem c4_isbn_containing_counterexample :
    hasSub (chs "ISBN 978-5-17-123456-7") (chs "ISBN 978-5-17-123456-7 text after") = true ∧
    extract_isbn (chs "ISBN 978-5-17-123456-7 text after") = chs "unknown" ∧
    chs "unknown" ≠ chs "9785171234567" := by
  refine ⟨by decide, by rfl, by decide⟩

/-- C4 (amended): `extract_isbn` returns a non-sentinel value only of the
10-or-13 shape (all digits, or nine digits and a trailing X); the input
consisting of `"ISBN 978-5-17-123456-7"` (the ISBN run ending at the end
of the string) yields `"9785171234567"`, and `"ISBN 123"` yields the
sentinel.  An input merely containing the marker does not always yield a
value: the captured run must be followed by `(`, `;`, `,` or the end of
the string. -/
theorem c4_isbn_validation_shape :
    (∀ s : Str, extract_isbn s ≠ chs "unknown" → validIsbn (extract_isbn s)) ∧
    extract_isbn (chs "ISBN 978-5-17-123456-7") = chs "9785171234567" ∧
    extract_isbn (chs "ISBN 123") = chs "unknown" := by
  refine ⟨fun s hne => ?_, by rfl, by rfl⟩
  rcases extract_isbn_shape s with h | h
  · exact absurd h hne
  · exact h.1

/-! ### C3: the GOST citation example -/

/-- The GOST citation entry of the spec's example. -/
def kuvaevText : Str :=
  chs "К89 Куваев, О. М. — Территория : роман. — Москва : Азбука, 2020. — 416 с."

/-- C3 (corrected), counterexample: on the cited GOST entry itself the
deterministic author extraction yields `"Куваев О. М."` (the comma
normalization keeps the whole initials part `"О. М."`), not the claimed
`"Куваев О"`. -/
theorem c3_author_counterexample :
    extract_author kuvaevText = chs "Куваев О. М." ∧
    extract_author kuvaevText ≠ chs "Куваев О" := by
  refine ⟨by rfl, ?_⟩
  intro h
  rw [show extract_author kuvaevText = chs "Куваев О. М." from by rfl] at h
  exact absurd h (by decide)

/-- C3 (amended): for the OCR text consisting of the GOST citation entry
`"К89 Куваев, О. М. — Территория : роман. — Москва : Азбука, 2020. — 416 с."`
the deterministic extractors yield title `"Территория"` (subtitle after
the colon stripped), author `"Куваев О. М."`, publisher `"Азбука"` and
year 2020.  (On a text with extra surrounding material the leftmost match
of the citation pattern wins, so the values can differ.) -/
theorem c3_kuvaev_entry_extraction :
    extract_title kuvaevText = chs "Территория" ∧
    extract_author kuvaevText = chs "Куваев О. М." ∧
    extract_publisher kuvaevText = chs "Азбука" ∧
    extract_year kuvaevText = 2020 := by
  exact ⟨by rfl, by rfl, by rfl, by rfl⟩

/-! ### C1: sentinel totality -/

/-- C1 (code bug): evaluating the pipeline at a failing input.  On the
hints-only fallback path (here with empty OCR text; any fallback run
behaves the same) the finalized record's annotation is the empty string,
not a non-empty string and not the sentinel `"unknown"`: `finalize` first
forces a falsy annotation to `"unknown"`, but `clean_annotation` then
drops the final fragment of any text without a sentence terminator, so
the sentinel itself - and any unterminated annotation - becomes `""`. -/
theorem c1_fallback_annot_is_empty_string :
    extract_metadata_with_llm_fallback (chs "") (chs "") =
      ⟨chs "unknown", chs "unknown", chs "unknown", some 0,
       chs "unknown", chs "unknown", chs "unknown", []⟩ ∧
    cleanAnn (chs "unknown") = [] ∧ ([] : Str) ≠ chs "unknown" := by
  exact ⟨by rfl, by rfl, by decide⟩

/-! ### C2: fallback completeness -/

theorem if_ne_sentinel_ident (x : Str) :
    (if x ≠ chs "unknown" then x else chs "unknown") = x := by
  by_cases h : x = chs "unknown" <;> simp [h]

theorem if_pos_year_ident (y : Nat) : (if y > 0 then (y : Int) else 0) = (y : Int) := by
  cases y with
  | zero => simp
  | succ n => simp

/-- The fallback branch's sentinel conditionals are identities, so its
dictionary is the plain hints-only record. -/
theorem fallback_data_eq_hints (t : Str) : fallback_data t = hintsOnlyRec t := by
  unfold fallback_data hintsOnlyRec
  simp only [if_ne_sentinel_ident, if_pos_year_ident]

/-- C2 (confirmed): when the model call fails, `extract_metadata_with_llm`
returns exactly the hints-only record (the seven deterministic hints and
the annotation sentinel) passed through the same normalization chain
(`normalize_author_title`, `normalize_strings`,
`normalize_old_cyrillic_data`, `finalize`) that model output gets, with
the hints computed from the same combined OCR text. -/
theorem c2_fallback_equals_normalized_hints (ocr_main ocr_eng : Str) :
    extract_metadata_with_llm_fallback ocr_main ocr_eng =
      normalizeChain (hintsOnlyRec (combineOcr ocr_main ocr_eng))
        (extract_isbn (combineOcr ocr_main ocr_eng))
        (extract_udk (combineOcr ocr_main ocr_eng))
        (extract_bbk (combineOcr ocr_main ocr_eng)) := by
  show normalizeChain (fallback_data (combineOcr ocr_main ocr_eng))
    (extract_isbn (combineOcr ocr_main ocr_eng))
    (extract_udk (combineOcr ocr_main ocr_eng))
    (extract_bbk (combineOcr ocr_main ocr_eng)) = _
  rw [fallback_data_eq_hints]

/-! ### C5: merge precedence -/

/-- The merge with a present catalog record, in closed form. -/
theorem merge_data_some (info : Rec) (cover : CoverPair) :
    merge_data (some info) cover =
      { title := if info.title = chs "unknown" ∧ cover.title ≠ chs "unknown"
          then cover.title else info.title
        author := if info.author = chs "unknown" ∧ cover.author ≠ chs "unknown"
          then cover.author else info.author
        publisher := info.publisher
        year := info.year
        isbn := info.isbn
        udk := info.udk
        bbk := info.bbk
        annot := info.annot } := by
  unfold merge_data
  by_cases h1 : info.title = chs "unknown" ∧ cover.title ≠ chs "unknown" <;>
    by_cases h2 : info.author = chs "unknown" ∧ cover.author ≠ chs "unknown" <;>
    simp [h1, h2]

/-- C5 (confirmed): in the merge step of the `/extract` endpoint the
catalog-page record's value wins for every field, except that an
`"unknown"` catalog title (author) is replaced by a non-`"unknown"`
cover title (author); a known catalog title is never replaced. -/
theorem c5_merge_precedence (info : Rec) (cover : CoverPair) :
    (merge_data (some info) cover).title =
      (if info.title = chs "unknown" ∧ cover.title ≠ chs "unknown"
        then cover.title else info.title) ∧
    (merge_data (some info) cover).author =
      (if info.author = chs "unknown" ∧ cover.author ≠ chs "unknown"
        then cover.author else info.author) ∧
    (merge_data (some info) cover).publisher = info.publisher ∧
    (merge_data (some info) cover).year = info.year ∧
    (merge_data (some info) cover).isbn = info.isbn ∧
    (merge_data (some info) cover).udk = info.udk ∧
    (merge_data (some info) cover).bbk = info.bbk ∧
    (merge_data (some info) cover).annot = info.annot := by
  rw [merge_data_some]
  exact ⟨rfl, rfl, rfl, rfl, rfl, rfl, rfl, rfl⟩

/-! ### C9: the no-OCR failure mode -/

/-- C9 (code bug): evaluating the endpoint at the failing input.  When no
region yields OCR text, the body raises `HTTPException(400, "No OCR
text")`, but the endpoint's blanket `except Exception` catches it and
re-raises `HTTPException(500, str(e))`, so the caller sees a server-side
500 whose detail is `"400: No OCR text"`, not the claimed client-side
400. -/
theorem c9_no_ocr_gives_500 (ocr_cover ocr_info : Str)
    (coverFn : Str → CoverPair) (infoFn : Str → Rec)
    (h1 : pyStrip ocr_cover = []) (h2 : pyStrip ocr_info = []) :
    extract_metadata ocr_cover ocr_info coverFn infoFn =
      .error (.http 500 (chs "400: No OCR text")) := by
  unfold extract_metadata endpoint_body
  rw [h1, h2]
  simp only [and_self, if_true, ite_true, if_pos]
  rfl

/-- A constant cover extractor (for the witness). -/
def constCover : Str → CoverPair := fun _ => ⟨chs "unknown", chs "unknown"⟩

/-- A constant info extractor (for the witness). -/
def constInfo : Str → Rec := fun _ =>
  ⟨chs "unknown", chs "unknown", chs "unknown", some 0,
   chs "unknown", chs "unknown", chs "unknown", chs "unknown"⟩

/-- Witness for C9: the empty request. -/
theorem c9_witness :
    extract_metadata (chs "") (chs "") constCover constInfo =
      .error (.http 500 (chs "400: No OCR text")) :=
  c9_no_ocr_gives_500 (chs "") (chs "") constCover constInfo (by rfl) (by rfl)

/-! ### C6: garbage-title rejection -/

theorem garbage_keywords_ne_nil : ∀ kw ∈ garbageKeywords, kw ≠ [] := by decide

theorem hasSub_nil_of_ne (kw : Str) (h : kw ≠ []) : hasSub kw [] = false := by
  cases kw with
  | nil => exact absurd rfl h
  | cons c cs => rfl

/-- C6 (confirmed): a title containing one of the garbage keywords
(matched on the lowercased title) is forced to `"unknown"` by
`normalize_author_title`, whatever the other fields hold: the garbage
step replaces it, the de-contamination step skips the sentinel, and the
embedded-author pattern does not match `"unknown"`. -/
theorem c6_garbage_title_rejected (d : Rec)
    (h : ∃ kw ∈ garbageKeywords, hasSub kw (pyLowerStr d.title) = true) :
    (normalize_author_title d).title = chs "unknown" := by
  obtain ⟨kw, hkw, hsub⟩ := h
  have htne : d.title ≠ [] := by
    intro hnil
    rw [hnil] at hsub
    rw [show pyLowerStr [] = [] from rfl] at hsub
    rw [hasSub_nil_of_ne kw (garbage_keywords_ne_nil kw hkw)] at hsub
    exact Bool.false_ne_true hsub
  have hany : garbageKeywords.any (fun k => hasSub k (pyLowerStr d.title)) = true :=
    List.any_eq_true.mpr ⟨kw, hkw, hsub⟩
  have hgar : nat_garbage d = { d with title := chs "unknown" } := by
    unfold nat_garbage
    rw [if_pos ⟨htne, hany⟩]
  have hdec : nat_decontam (nat_garbage d) = { d with title := chs "unknown" } := by
    rw [hgar]
    unfold nat_decontam
    rw [if_neg]
    intro hc
    exact hc.2 rfl
  unfold normalize_author_title
  rw [hdec]
  unfold nat_embed
  have hembu : embMatch (chs "unknown") = none := by rfl
  simp only [hembu]

/-- Witness for C6: a record whose title is `"Copyright 1997"`. -/
theorem c6_witness :
    (normalize_author_title
      ⟨chs "Copyright 1997", chs "Автор", chs "Изд", some 1997,
       chs "i", chs "u", chs "b", chs "a"⟩).title = chs "unknown" :=
  c6_garbage_title_rejected _ ⟨chs "copyright", by decide, by decide⟩

/-! ### C8: embedded-author extraction -/

/-- C8 (confirmed): after the garbage and de-contamination steps, a title
that still matches the embedded-author shape `Surname, Given. — Rest`
(the code's pattern also accepts a hyphen for the dash; with an actual
em-dash the de-contamination step has already cut the title at `". —"`,
so the hyphen form is the one that survives to this step) has Surname and
Given moved into the author, joined as `Surname Given`, and the title set
to the stripped Rest. -/
theorem c8_embedded_author_moved (d : Rec) (sn gv rest : Str)
    (h : embMatch (nat_decontam (nat_garbage d)).title = some (sn, gv, rest)) :
    (normalize_author_title d).author = sn ++ ' ' :: gv ∧
    (normalize_author_title d).title = pyStrip rest := by
  unfold normalize_author_title nat_embed
  rw [h]
  exact ⟨rfl, rfl⟩

/-- Witness for C8: the decontaminated title `"Иванов, Петр. - Повесть"`
matches, and the author and title move accordingly. -/
theorem c8_witness :
    (normalize_author_title
      ⟨chs "Иванов, Петр. - Повесть", chs "aut", chs "p", some 1,
       chs "i", chs "u", chs "b", chs "a"⟩).author = chs "Иванов Петр" ∧
    (normalize_author_title
      ⟨chs "Иванов, Петр. - Повесть", chs "aut", chs "p", some 1,
       chs "i", chs "u", chs "b", chs "a"⟩).title = chs "Повесть" := by
  have h := c8_embedded_author_moved
    ⟨chs "Иванов, Петр. - Повесть", chs "aut", chs "p", some 1,
     chs "i", chs "u", chs "b", chs "a"⟩
    (chs "Иванов") (chs "Петр") (chs "Повесть") (by rfl)
  exact ⟨h.1.trans (by rfl), h.2.trans (by rfl)⟩

/-! ### C10: hyphen retention in the two ISBN paths -/

/-- C10 (confirmed): a model-supplied ISBN that passes `finalize`'s
re-validation is stored as `isbnClean` of the input - truncated at the
first `(`, `;` or `,`, stripped, with every character other than digits,
`X`/`x` and hyphens removed and letters uppercased, hyphens retained -
whereas the deterministic `extract_isbn` always returns a fully
separator-stripped digit (or digit-and-trailing-X) string; on the same
hyphenated source the two paths give `"978-5-17-123456-7"` and
`"9785171234567"` respectively. -/
theorem c10_isbn_hyphen_retention :
    (∀ (d : Rec) (ih uh bh : Str), d.isbn ≠ [] → d.isbn ≠ chs "unknown" →
      isbnCheck (isbnDigits (isbnClean d.isbn)) = true →
      (finalize d ih uh bh).isbn = isbnClean d.isbn) ∧
    (∀ s : Str, extract_isbn s = chs "unknown" ∨
      (validIsbn (extract_isbn s) ∧ (extract_isbn s).contains '-' = false)) ∧
    (finalize ⟨chs "T", chs "A", chs "P", some 2020, chs "978-5-17-123456-7",
        chs "u", chs "b", chs "an."⟩ (chs "IH") (chs "UH") (chs "BH")).isbn =
      chs "978-5-17-123456-7" ∧
    extract_isbn (chs "ISBN 978-5-17-123456-7") = chs "9785171234567" := by
  refine ⟨fun d ih uh bh h1 h2 hchk => ?_, extract_isbn_shape, by rfl, by rfl⟩
  unfold finalize
  simp only
  have hin : (if d.isbn = [] ∨ d.isbn = chs "unknown" then ih else d.isbn) = d.isbn := by
    rw [if_neg]
    rintro (hc | hc)
    · exact h1 hc
    · exact h2 hc
  rw [hin, if_neg h2]
  unfold isbnReval
  rw [if_pos hchk]

/-! ### C7: idempotence of the annotation cleaner

`clean_annotation` drops the trailing unterminated fragment, so it is not
idempotent on texts without a sentence terminator (`"hello"` maps to
`""`, which maps to `"unknown"`).  On every input containing at least one
terminator it is idempotent; the development below proves that.  The key
facts: the cleaner's output is a *tight* string (single spaces only,
flanked by non-space characters), `wsCollapse` is the identity on tight
strings, and re-parsing the output reproduces exactly the deduplicated
sentence list. -/

/-- Every space character is a plain `' '` followed by a non-space
character; in particular no trailing space.  (Scanning from inside the
string.) -/
def tightRest : Str → Bool
  | [] => true
  | c :: cs =>
    if c = ' ' then
      match cs with
      | [] => false
      | d :: _ => !pyIsSpace d && tightRest cs
    else !pyIsSpace c && tightRest cs

/-- A tight string: empty, or starting with a non-space character and
`tightRest` throughout (so: no leading or trailing whitespace, only
single `' '` separators inside). -/
def tightStr : Str → Bool
  | [] => true
  | c :: cs => !pyIsSpace c && tightRest (c :: cs)

/-- Every space character is a plain `' '` and is followed by a non-space
character or is last: the property chunks of a tight string keep. -/
def looseTight : Str → Bool
  | [] => true
  | [c] => !pyIsSpace c || c = ' '
  | c :: d :: r => (!pyIsSpace c || (c = ' ' && !pyIsSpace d)) && looseTight (d :: r)

theorem isTerm_not_space (d : Char) (hd : isTerm d = true) : pyIsSpace d = false := by
  have : (d = '.' ∨ d = '!') ∨ d = '?' := by
    simpa [isTerm, Bool.or_eq_true, decide_eq_true_eq, or_assoc] using hd
  rcases this with (rfl | rfl) | rfl <;> decide

theorem tightRest_space_nil : tightRest [' '] = false := rfl

theorem tightRest_space_cons (d : Char) (r : Str) :
    tightRest (' ' :: d :: r) = (!pyIsSpace d && tightRest (d :: r)) := rfl

theorem tightRest_ns_cons (c : Char) (hc : c ≠ ' ') (cs : Str) :
    tightRest (c :: cs) = (!pyIsSpace c && tightRest cs) := by
  conv_lhs => unfold tightRest
  rw [if_neg hc]

theorem tightRest_tail (c : Char) (cs : Str) (h : tightRest (c :: cs) = true) :
    tightRest cs = true := by
  by_cases hc : c = ' '
  · subst hc
    cases cs with
    | nil => rfl
    | cons d r =>
      rw [tightRest_space_cons] at h
      exact (Bool.and_eq_true _ _ ▸ h).2
  · rw [tightRest_ns_cons c hc cs] at h
    exact (Bool.and_eq_true _ _ ▸ h).2

theorem tightRest_cons_of_ne_space (c : Char) (cs : Str) (hc : pyIsSpace c = false)
    (h : tightRest cs = true) : tightRest (c :: cs) = true := by
  have hc2 : c ≠ ' ' := by
    intro h2; rw [h2] at hc; exact absurd hc (by decide)
  rw [tightRest_ns_cons c hc2 cs, h, hc]
  rfl

theorem getLastD_cons_ne (d : Char) (l : Str) (hl : l ≠ []) (a b : Char) :
    (d :: l).getLastD a = l.getLastD b := by
  rw [List.getLastD_cons, List.getLastD_eq_getLast?, List.getLastD_eq_getLast?,
    List.getLast?_eq_getLast l hl]
  simp

/-- Appending onto a string whose last character is not a space keeps
tightness. -/
theorem tightRest_append (a b : Str) (ha : tightRest a = true)
    (hlast : a = [] ∨ pyIsSpace (a.getLastD ' ') = false) (hb : tightRest b = true) :
    tightRest (a ++ b) = true := by
  induction a with
  | nil => simpa using hb
  | cons c cs ih =>
    have hcs : tightRest cs = true := tightRest_tail c cs ha
    rcases hlast with hlast | hlast
    · exact absurd hlast (by simp)
    cases cs with
    | nil =>
      have hc : pyIsSpace c = false := by simpa using hlast
      exact tightRest_cons_of_ne_space c b hc hb
    | cons d r =>
      have hlast2 : pyIsSpace ((d :: r).getLastD ' ') = false := by
        rw [getLastD_cons_ne c (d :: r) (by simp) ' ' ' '] at hlast
        exact hlast
      have hrec : tightRest (d :: r ++ b) = true := ih hcs (Or.inr hlast2)
      by_cases hc : c = ' '
      · subst hc
        rw [tightRest_space_cons] at ha
        have hd : pyIsSpace d = false := by
          have := (Bool.and_eq_true _ _ ▸ ha).1
          simpa using this
        show tightRest (' ' :: d :: (r ++ b)) = true
        rw [tightRest_space_cons, hd]
        simpa using hrec
      · have hcns : pyIsSpace c = false := by
          rw [tightRest_ns_cons c hc (d :: r)] at ha
          have := (Bool.and_eq_true _ _ ▸ ha).1
          simpa using this
        exact tightRest_cons_of_ne_space c _ hcns hrec

theorem tightStr_cons_iff (c : Char) (cs : Str) :
    tightStr (c :: cs) = true ↔ pyIsSpace c = false ∧ tightRest (c :: cs) = true := by
  unfold tightStr
  simp [Bool.and_eq_true]

theorem tightStr_of_all_ns (w : Str) (h : ∀ c ∈ w, pyIsSpace c = false) :
    tightRest w = true ∧ tightStr w = true := by
  induction w with
  | nil => exact ⟨rfl, rfl⟩
  | cons c cs ih =>
    have hc : pyIsSpace c = false := h c (by simp)
    have hcs : tightRest cs = true :=
      (ih (fun x hx => h x (by simp [hx]))).1
    have h1 : tightRest (c :: cs) = true := tightRest_cons_of_ne_space c cs hc hcs
    exact ⟨h1, (tightStr_cons_iff c cs).mpr ⟨hc, h1⟩⟩

theorem getLastD_mem (l : Str) (hl : l ≠ []) (d : Char) : l.getLastD d ∈ l := by
  rw [List.getLastD_eq_getLast?, List.getLast?_eq_getLast l hl]
  exact List.getLast_mem hl

/-- The shape of the cleaner's sentences: non-empty, tight, ending in a
non-space character. -/
def sentOK (x : Str) : Prop :=
  x ≠ [] ∧ tightStr x = true ∧ pyIsSpace (x.getLastD ' ') = false

theorem tight_joinSp (l : List Str) (h : ∀ x ∈ l, sentOK x) :
    tightStr (joinSp l) = true ∧ (l ≠ [] → joinSp l ≠ []) := by
  induction l with
  | nil => exact ⟨rfl, fun hn => absurd rfl hn⟩
  | cons x rest ih =>
    obtain ⟨hxne, hxt, hxl⟩ := h x (by simp)
    have ihr := ih (fun y hy => h y (by simp [hy]))
    cases rest with
    | nil =>
      have : joinSp [x] = x := by
        show x ++ joinTail [] = x
        simp [joinTail]
      rw [this]
      exact ⟨hxt, fun _ => hxne⟩
    | cons y rest2 =>
      have hz : joinSp (y :: rest2) ≠ [] := ihr.2 (by simp)
      have hzt : tightStr (joinSp (y :: rest2)) = true := ihr.1
      have hjoin : joinSp (x :: y :: rest2) = x ++ ' ' :: joinSp (y :: rest2) := by
        show x ++ joinTail (y :: rest2) = _
        show x ++ (' ' :: (y ++ joinTail rest2)) = _
        rfl
      rw [hjoin]
      cases hzeq : joinSp (y :: rest2) with
      | nil => exact absurd hzeq hz
      | cons zc zr =>
        rw [hzeq] at hzt
        obtain ⟨hzc, hztr⟩ := (tightStr_cons_iff zc zr).mp hzt
        have hsb : tightRest (' ' :: zc :: zr) = true := by
          rw [tightRest_space_cons, hzc]
          simpa using hztr
        cases x with
        | nil => exact absurd rfl hxne
        | cons c cs =>
          obtain ⟨hc, hctr⟩ := (tightStr_cons_iff c cs).mp hxt
          have happ : tightRest ((c :: cs) ++ (' ' :: zc :: zr)) = true :=
            tightRest_append (c :: cs) (' ' :: zc :: zr) hctr (Or.inr hxl) hsb
          refine ⟨(tightStr_cons_iff c (cs ++ ' ' :: zc :: zr)).mpr ⟨hc, ?_⟩, fun _ => by simp⟩
          simpa using happ

theorem splitOut_cons (c : Char) (cs : Str) :
    splitOut (c :: cs) =
      if pyIsSpace c then splitOut cs else (c :: (splitIn cs).1) :: (splitIn cs).2 := by
  rfl

theorem splitIn_cons (c : Char) (cs : Str) :
    splitIn (c :: cs) =
      if pyIsSpace c then ([], splitOut cs) else (c :: (splitIn cs).1, (splitIn cs).2) := by
  rfl

theorem splitOut_splitIn_words (s : Str) :
    (∀ w ∈ splitOut s, w ≠ [] ∧ ∀ c ∈ w, pyIsSpace c = false) ∧
    ((∀ c ∈ (splitIn s).1, pyIsSpace c = false) ∧
      ∀ w ∈ (splitIn s).2, w ≠ [] ∧ ∀ c ∈ w, pyIsSpace c = false) := by
  induction s with
  | nil =>
    refine ⟨fun w hw => absurd hw (by simp [splitOut]), fun c hc => absurd hc (by simp [splitIn]),
      fun w hw => absurd hw (by simp [splitIn])⟩
  | cons c cs ih =>
    obtain ⟨ih1, ih2, ih3⟩ := ih
    by_cases hc : pyIsSpace c
    · refine ⟨?_, ?_, ?_⟩
      · rw [splitOut_cons, if_pos hc]
        exact ih1
      · rw [splitIn_cons, if_pos hc]
        intro x hx
        exact absurd hx (by simp)
      · rw [splitIn_cons, if_pos hc]
        exact ih1
    · have hcf : pyIsSpace c = false := by simpa using hc
      refine ⟨?_, ?_, ?_⟩
      · rw [splitOut_cons, if_neg hc]
        intro w hw
        rcases List.mem_cons.mp hw with rfl | hw2
        · refine ⟨by simp, ?_⟩
          intro x hx
          rcases List.mem_cons.mp hx with rfl | hx2
          · exact hcf
          · exact ih2 x hx2
        · exact ih3 w hw2
      · rw [splitIn_cons, if_neg hc]
        intro x hx
        rcases List.mem_cons.mp hx with rfl | hx2
        · exact hcf
        · exact ih2 x hx2
      · rw [splitIn_cons, if_neg hc]
        exact ih3

theorem tightStr_wsCollapse (t : Str) : tightStr (wsCollapse t) = true := by
  unfold wsCollapse
  refine (tight_joinSp (splitOut t) ?_).1
  intro w hw
  obtain ⟨hne, hns⟩ := (splitOut_splitIn_words t).1 w hw
  refine ⟨hne, (tightStr_of_all_ns w hns).2, ?_⟩
  exact hns _ (getLastD_mem w hne ' ')

theorem splitIn_reconstruct (cs : Str) (h : tightRest cs = true) :
    (splitIn cs).1 ++ joinTail (splitIn cs).2 = cs := by
  have H : ∀ n (cs : Str), cs.length ≤ n → tightRest cs = true →
      (splitIn cs).1 ++ joinTail (splitIn cs).2 = cs := by
    intro n
    induction n with
    | zero =>
      intro cs hl _
      cases cs with
      | nil => rfl
      | cons c cs2 => simp at hl
    | succ n ih =>
      intro cs hl h
      cases cs with
      | nil => rfl
      | cons c cs2 =>
        by_cases hc : pyIsSpace c
        · have hceq : c = ' ' := by
            by_contra hne
            rw [tightRest_ns_cons c hne cs2] at h
            have := (Bool.and_eq_true _ _ ▸ h).1
            rw [hc] at this
            exact absurd this (by decide)
          subst hceq
          cases cs2 with
          | nil => exact absurd h (by rw [tightRest_space_nil]; decide)
          | cons d r =>
            rw [tightRest_space_cons] at h
            have hd : pyIsSpace d = false := by
              have := (Bool.and_eq_true _ _ ▸ h).1
              simpa using this
            have hdr : tightRest (d :: r) = true := (Bool.and_eq_true _ _ ▸ h).2
            have hr : tightRest r = true := tightRest_tail d r hdr
            rw [splitIn_cons, if_pos (by decide)]
            simp only
            rw [splitOut_cons, if_neg (by simp [hd])]
            show joinTail ((d :: (splitIn r).1) :: (splitIn r).2) = ' ' :: d :: r
            show ' ' :: ((d :: (splitIn r).1) ++ joinTail (splitIn r).2) = ' ' :: d :: r
            have := ih r (by simp at hl; omega) hr
            simp [this]
        · rw [splitIn_cons, if_neg hc]
          have hcs2 : tightRest cs2 = true := tightRest_tail c cs2 h
          have := ih cs2 (by simp at hl; omega) hcs2
          simp only
          show c :: ((splitIn cs2).1 ++ joinTail (splitIn cs2).2) = c :: cs2
          rw [this]
  exact H cs.length cs (le_refl _) h

/-- `wsCollapse` is the identity on tight strings; in particular it is
idempotent. -/
theorem wsCollapse_eq_self (s : Str) (h : tightStr s = true) : wsCollapse s = s := by
  cases s with
  | nil => rfl
  | cons c cs =>
    obtain ⟨hc, hrest⟩ := (tightStr_cons_iff c cs).mp h
    unfold wsCollapse
    rw [splitOut_cons, if_neg (by simp [hc])]
    show (c :: (splitIn cs).1) ++ joinTail (splitIn cs).2 = c :: cs
    have hcs : tightRest cs = true := tightRest_tail c cs hrest
    have := splitIn_reconstruct cs hcs
    simp [this]

theorem parseSent_cons_term (c : Char) (cs : Str) (hc : isTerm c = true) :
    parseSent (c :: cs) = (([], c) :: (parseSent cs).1, (parseSent cs).2) := by
  conv_lhs => unfold parseSent
  simp only [hc, if_true]

theorem parseSent_cons_nt_cons (c : Char) (cs : Str) (hc : isTerm c = false)
    (ch : Str) (d : Char) (ps : List (Str × Char)) (hr : (parseSent cs).1 = (ch, d) :: ps) :
    parseSent (c :: cs) = ((c :: ch, d) :: ps, (parseSent cs).2) := by
  conv_lhs => unfold parseSent
  simp only [hc, Bool.false_eq_true, if_false, hr]

theorem parseSent_cons_nt_nil (c : Char) (cs : Str) (hc : isTerm c = false)
    (hr : (parseSent cs).1 = []) :
    parseSent (c :: cs) = ([], c :: (parseSent cs).2) := by
  conv_lhs => unfold parseSent
  simp only [hc, Bool.false_eq_true, if_false, hr]

/-- Parsing a terminator-free chunk followed by a terminator. -/
theorem parseSent_append (b : Str) (hb : ∀ c ∈ b, isTerm c = false) (d : Char)
    (hd : isTerm d = true) (rest : Str) :
    parseSent (b ++ d :: rest) = ((b, d) :: (parseSent rest).1, (parseSent rest).2) := by
  induction b with
  | nil =>
    simpa using parseSent_cons_term d rest hd
  | cons c b2 ih =>
    have hc : isTerm c = false := hb c (by simp)
    have ih2 := ih (fun x hx => hb x (by simp [hx]))
    have hr : (parseSent (b2 ++ d :: rest)).1 = (b2, d) :: (parseSent rest).1 := by
      rw [ih2]
    have := parseSent_cons_nt_cons c (b2 ++ d :: rest) hc b2 d (parseSent rest).1 hr
    rw [show ((c :: b2) ++ d :: rest) = c :: (b2 ++ d :: rest) from rfl, this, ih2]

theorem parseSent_chunks (s : Str) :
    (∀ p ∈ (parseSent s).1, (∀ c ∈ p.1, isTerm c = false) ∧ isTerm p.2 = true) := by
  induction s with
  | nil =>
    intro p hp
    exact absurd hp (by simp [parseSent])
  | cons c cs ih =>
    intro p hp
    by_cases hc : isTerm c
    · rw [parseSent_cons_term c cs hc] at hp
      rcases List.mem_cons.mp hp with rfl | hp2
      · exact ⟨fun x hx => absurd hx (by simp), hc⟩
      · exact ih p hp2
    · have hcf : isTerm c = false := by simpa using hc
      cases hr : (parseSent cs).1 with
      | nil =>
        rw [parseSent_cons_nt_nil c cs hcf hr] at hp
        exact absurd hp (by simp)
      | cons q ps =>
        rw [parseSent_cons_nt_cons c cs hcf q.1 q.2 ps (by rw [hr])] at hp
        rcases List.mem_cons.mp hp with rfl | hp2
        · have hq := ih q (by rw [hr]; simp)
          refine ⟨?_, hq.2⟩
          intro x hx
          rcases List.mem_cons.mp hx with rfl | hx2
          · exact hcf
          · exact hq.1 x hx2
        · exact ih p (by rw [hr]; simp [hp2])

theorem parseSent_rest_of_nil (s : Str) (h : (parseSent s).1 = []) :
    (parseSent s).2 = s := by
  induction s with
  | nil => rfl
  | cons c cs ih =>
    by_cases hc : isTerm c
    · rw [parseSent_cons_term c cs hc] at h
      exact absurd h (by simp)
    · have hcf : isTerm c = false := by simpa using hc
      cases hr : (parseSent cs).1 with
      | cons q ps =>
        rw [parseSent_cons_nt_cons c cs hcf q.1 q.2 ps (by rw [hr])] at h
        exact absurd h (by simp)
      | nil =>
        rw [parseSent_cons_nt_nil c cs hcf hr]
        simp [ih hr]

theorem parseSent_ne_nil_of_term (s : Str) (h : s.any isTerm = true) :
    (parseSent s).1 ≠ [] := by
  induction s with
  | nil => simp at h
  | cons c cs ih =>
    by_cases hc : isTerm c
    · rw [parseSent_cons_term c cs hc]
      simp
    · have hcf : isTerm c = false := by simpa using hc
      have hcs : cs.any isTerm = true := by
        rcases List.any_eq_true.mp h with ⟨x, hx, hterm⟩
        rcases List.mem_cons.mp hx with rfl | hx2
        · rw [hcf] at hterm; exact absurd hterm (by decide)
        · exact List.any_eq_true.mpr ⟨x, hx2, hterm⟩
      cases hr : (parseSent cs).1 with
      | nil => exact absurd hr (ih hcs)
      | cons q ps =>
        rw [parseSent_cons_nt_cons c cs hcf q.1 q.2 ps (by rw [hr])]
        simp

theorem bnot_true (b : Bool) (h : (!b) = true) : b = false := by
  cases b
  · rfl
  · exact absurd h (by decide)

theorem looseTight_two (c d : Char) (r : Str) :
    looseTight (c :: d :: r) =
      ((!pyIsSpace c || (c = ' ' && !pyIsSpace d)) && looseTight (d :: r)) := rfl

theorem looseTight_one (c : Char) : looseTight [c] = (!pyIsSpace c || c = ' ') := rfl

theorem looseTight_tail (c : Char) (cs : Str) (h : looseTight (c :: cs) = true) :
    looseTight cs = true := by
  cases cs with
  | nil => rfl
  | cons d r =>
    rw [looseTight_two] at h
    exact (Bool.and_eq_true _ _ ▸ h).2

theorem looseTight_of_tightRest (s : Str) (h : tightRest s = true) :
    looseTight s = true := by
  induction s with
  | nil => rfl
  | cons c cs ih =>
    have hcs := ih (tightRest_tail c cs h)
    by_cases hc : c = ' '
    · subst hc
      cases cs with
      | nil => exact absurd h (by rw [tightRest_space_nil]; decide)
      | cons d r =>
        rw [tightRest_space_cons] at h
        have hd : pyIsSpace d = false := bnot_true _ (Bool.and_eq_true _ _ ▸ h).1
        rw [looseTight_two, hcs, hd]
        simp
    · have hcns : pyIsSpace c = false := by
        rw [tightRest_ns_cons c hc cs] at h
        exact bnot_true _ (Bool.and_eq_true _ _ ▸ h).1
      cases cs with
      | nil => rw [looseTight_one, hcns]; simp
      | cons d r =>
        rw [looseTight_two, hcs, hcns]
        simp

theorem tightRest_of_loose (b : Str) (h : looseTight b = true)
    (hl : b = [] ∨ pyIsSpace (b.getLastD ' ') = false) : tightRest b = true := by
  induction b with
  | nil => rfl
  | cons c cs ih =>
    rcases hl with hl | hl
    · exact absurd hl (by simp)
    cases cs with
    | nil =>
      have hc : pyIsSpace c = false := by simpa using hl
      exact tightRest_cons_of_ne_space c [] hc rfl
    | cons d r =>
      rw [getLastD_cons_ne c (d :: r) (by simp) ' ' ' '] at hl
      have hdr : tightRest (d :: r) = true :=
        ih (looseTight_tail c (d :: r) h) (Or.inr hl)
      rw [looseTight_two] at h
      have hhead := (Bool.and_eq_true _ _ ▸ h).1
      by_cases hc : c = ' '
      · subst hc
        have hd : pyIsSpace d = false := by
          rcases Bool.or_eq_true _ _ ▸ hhead with h1 | h1
          · exact absurd h1 (by decide)
          · exact bnot_true _ (Bool.and_eq_true _ _ ▸ h1).2
        rw [tightRest_space_cons, hd]
        simpa using hdr
      · have hcns : pyIsSpace c = false := by
          rcases Bool.or_eq_true _ _ ▸ hhead with h1 | h1
          · exact bnot_true _ h1
          · exact absurd (of_decide_eq_true (Bool.and_eq_true _ _ ▸ h1).1) hc
        exact tightRest_cons_of_ne_space c (d :: r) hcns hdr

theorem looseTight_dropWs (s : Str) (h : looseTight s = true) :
    looseTight (dropWs s) = true := by
  induction s with
  | nil => exact h
  | cons c cs ih =>
    by_cases hc : pyIsSpace c
    · rw [show dropWs (c :: cs) = dropWs cs from List.dropWhile_cons_of_pos hc]
      exact ih (looseTight_tail c cs h)
    · rw [show dropWs (c :: cs) = c :: cs from
        List.dropWhile_cons_of_neg (by simpa using hc)]
      exact h

theorem rstrip_cons_eq (c : Char) (cs : Str) :
    rstrip (c :: cs) =
      if (rstrip cs = [] && pyIsSpace c : Bool) then [] else c :: rstrip cs := rfl

theorem rstrip_head_cases (s : Str) :
    rstrip s = [] ∨ ∃ c s2 t, s = c :: s2 ∧ rstrip s = c :: t := by
  cases s with
  | nil => exact Or.inl rfl
  | cons c cs =>
    rw [rstrip_cons_eq]
    by_cases hcond : (rstrip cs = [] && pyIsSpace c : Bool) = true
    · rw [if_pos hcond]
      exact Or.inl rfl
    · rw [if_neg hcond]
      exact Or.inr ⟨c, cs, rstrip cs, rfl, rfl⟩

theorem looseTight_rstrip (s : Str) (h : looseTight s = true) :
    looseTight (rstrip s) = true := by
  induction s with
  | nil => exact h
  | cons c cs ih =>
    rw [rstrip_cons_eq]
    by_cases hcond : (rstrip cs = [] && pyIsSpace c : Bool) = true
    · rw [if_pos hcond]
      rfl
    · rw [if_neg hcond]
      have ihr := ih (looseTight_tail c cs h)
      rcases rstrip_head_cases cs with hnil | ⟨d, s2, t, hcs, hr⟩
      · have hcns : pyIsSpace c = false := by
          cases hpc : pyIsSpace c
          · rfl
          · exact absurd (by simp [hnil, hpc]) hcond
        rw [hnil, looseTight_one, hcns]
        simp
      · subst hcs
        rw [hr]
        rw [hr] at ihr
        rw [looseTight_two]
        rw [looseTight_two] at h
        have hhead := (Bool.and_eq_true _ _ ▸ h).1
        rw [hhead, ihr]
        simp

theorem dropWs_head_ns (s : Str) (c : Char) (rest : Str) (h : dropWs s = c :: rest) :
    pyIsSpace c = false := by
  induction s with
  | nil => exact absurd h (by simp [dropWs])
  | cons a as ih =>
    by_cases ha : pyIsSpace a
    · rw [show dropWs (a :: as) = dropWs as from List.dropWhile_cons_of_pos ha] at h
      exact ih h
    · rw [show dropWs (a :: as) = a :: as from
        List.dropWhile_cons_of_neg (by simpa using ha)] at h
      injection h with h1 _
      subst h1
      simpa using ha

theorem rstrip_last_ns (s : Str) (h : rstrip s ≠ []) :
    pyIsSpace ((rstrip s).getLastD ' ') = false := by
  induction s with
  | nil => exact absurd rfl h
  | cons c cs ih =>
    rw [rstrip_cons_eq] at h ⊢
    by_cases hcond : (rstrip cs = [] && pyIsSpace c : Bool) = true
    · rw [if_pos hcond] at h
      exact absurd rfl h
    · rw [if_neg hcond]
      by_cases hnil : rstrip cs = []
      · have hc : pyIsSpace c = false := by
          cases hpc : pyIsSpace c
          · rfl
          · exact absurd (by simp [hnil, hpc]) hcond
        rw [hnil]
        simpa using hc
      · rw [getLastD_cons_ne c (rstrip cs) hnil ' ' ' ']
        exact ih hnil

theorem rstrip_eq_self (s : Str) (h : s = [] ∨ pyIsSpace (s.getLastD ' ') = false) :
    rstrip s = s := by
  induction s with
  | nil => rfl
  | cons c cs ih =>
    rcases h with h | h
    · exact absurd h (by simp)
    cases cs with
    | nil =>
      have hc : pyIsSpace c = false := by simpa using h
      rw [rstrip_cons_eq]
      rw [if_neg (by simp [rstrip, hc])]
      rfl
    | cons d r =>
      rw [getLastD_cons_ne c (d :: r) (by simp) ' ' ' '] at h
      have hr : rstrip (d :: r) = d :: r := ih (Or.inr h)
      rw [rstrip_cons_eq, hr]
      rw [if_neg (by simp)]

theorem rstrip_subset (s : Str) : ∀ c ∈ rstrip s, c ∈ s := by
  induction s with
  | nil => intro c hc; exact absurd hc (by simp [rstrip])
  | cons a as ih =>
    intro c hc
    rw [rstrip_cons_eq] at hc
    by_cases hcond : (rstrip as = [] && pyIsSpace a : Bool) = true
    · rw [if_pos hcond] at hc
      exact absurd hc (by simp)
    · rw [if_neg hcond] at hc
      rcases List.mem_cons.mp hc with rfl | hc2
      · simp
      · simp [ih c hc2]

theorem dropWs_subset (s : Str) : ∀ c ∈ dropWs s, c ∈ s := by
  induction s with
  | nil => intro c hc; exact absurd hc (by simp [dropWs])
  | cons a as ih =>
    intro c hc
    by_cases ha : pyIsSpace a
    · rw [show dropWs (a :: as) = dropWs as from List.dropWhile_cons_of_pos ha] at hc
      simp [ih c hc]
    · rw [show dropWs (a :: as) = a :: as from
        List.dropWhile_cons_of_neg (by simpa using ha)] at hc
      exact hc

theorem pyStrip_subset (s : Str) : ∀ c ∈ pyStrip s, c ∈ s := by
  intro c hc
  exact dropWs_subset s c (rstrip_subset (dropWs s) c hc)

theorem pyStrip_head_ns (s : Str) (c : Char) (rest : Str) (h : pyStrip s = c :: rest) :
    pyIsSpace c = false := by
  unfold pyStrip at h
  rcases rstrip_head_cases (dropWs s) with hnil | ⟨e, s2, t, hds, hr⟩
  · rw [hnil] at h
    exact absurd h (by simp)
  · rw [hr] at h
    injection h with h1 _
    rw [← h1]
    exact dropWs_head_ns s e s2 hds

theorem pyStrip_last_ns (s : Str) (h : pyStrip s ≠ []) :
    pyIsSpace ((pyStrip s).getLastD ' ') = false :=
  rstrip_last_ns (dropWs s) h

theorem pyStrip_idem (s : Str) : pyStrip (pyStrip s) = pyStrip s := by
  cases hb : pyStrip s with
  | nil => rfl
  | cons c cs =>
    have hhead : pyIsSpace c = false := pyStrip_head_ns s c cs hb
    have hlast : pyIsSpace ((c :: cs).getLastD ' ') = false := by
      rw [← hb]
      exact pyStrip_last_ns s (by rw [hb]; simp)
    show rstrip (dropWs (c :: cs)) = c :: cs
    rw [show dropWs (c :: cs) = c :: cs from
      List.dropWhile_cons_of_neg (by simpa using hhead)]
    exact rstrip_eq_self (c :: cs) (Or.inr hlast)

theorem pyStrip_space_cons (l : Str) : pyStrip (' ' :: l) = pyStrip l := by
  show rstrip (dropWs (' ' :: l)) = rstrip (dropWs l)
  rw [show dropWs (' ' :: l) = dropWs l from List.dropWhile_cons_of_pos (by decide)]

theorem tightStr_pyStrip_of_loose (ch : Str) (h : looseTight ch = true) :
    tightStr (pyStrip ch) = true := by
  cases hb : pyStrip ch with
  | nil => rfl
  | cons c cs =>
    have hloose : looseTight (pyStrip ch) = true :=
      looseTight_rstrip (dropWs ch) (looseTight_dropWs ch h)
    have hhead : pyIsSpace c = false := pyStrip_head_ns ch c cs hb
    have hlast : pyIsSpace ((c :: cs).getLastD ' ') = false := by
      rw [← hb]
      exact pyStrip_last_ns ch (by rw [hb]; simp)
    rw [hb] at hloose
    refine (tightStr_cons_iff c cs).mpr ⟨hhead, ?_⟩
    exact tightRest_of_loose (c :: cs) hloose (Or.inr hlast)

theorem parseSent_first_chunk (e : Char) (cs : Str) (ch : Str) (d : Char)
    (ps : List (Str × Char)) (h : (parseSent (e :: cs)).1 = (ch, d) :: ps) :
    (isTerm e = true ∧ ch = []) ∨ (isTerm e = false ∧ ∃ ch2, ch = e :: ch2) := by
  by_cases he : isTerm e
  · rw [parseSent_cons_term e cs he] at h
    injection h with h1 _
    injection h1 with h2 _
    exact Or.inl ⟨he, h2.symm⟩
  · have hef : isTerm e = false := by simpa using he
    cases hr : (parseSent cs).1 with
    | nil =>
      rw [parseSent_cons_nt_nil e cs hef hr] at h
      exact absurd h.symm (by simp)
    | cons q ps2 =>
      rw [parseSent_cons_nt_cons e cs hef q.1 q.2 ps2 (by rw [hr])] at h
      injection h with h1 _
      injection h1 with h2 _
      exact Or.inr ⟨hef, q.1, h2.symm⟩

theorem parseSent_chunks_loose (s : Str) (h : looseTight s = true) :
    ∀ p ∈ (parseSent s).1, looseTight p.1 = true := by
  induction s with
  | nil =>
    intro p hp
    exact absurd hp (by simp [parseSent])
  | cons c cs ih =>
    intro p hp
    have ihcs := ih (looseTight_tail c cs h)
    by_cases hc : isTerm c
    · rw [parseSent_cons_term c cs hc] at hp
      rcases List.mem_cons.mp hp with rfl | hp2
      · rfl
      · exact ihcs p hp2
    · have hcf : isTerm c = false := by simpa using hc
      cases hr : (parseSent cs).1 with
      | nil =>
        rw [parseSent_cons_nt_nil c cs hcf hr] at hp
        exact absurd hp (by simp)
      | cons q ps =>
        rw [parseSent_cons_nt_cons c cs hcf q.1 q.2 ps (by rw [hr])] at hp
        rcases List.mem_cons.mp hp with rfl | hp2
        · have hq1 : looseTight q.1 = true := ihcs q (by rw [hr]; simp)
          cases cs with
          | nil =>
            rw [show (parseSent ([] : Str)).1 = [] from rfl] at hr
            exact absurd hr.symm (by simp)
          | cons e cs2 =>
            rcases parseSent_first_chunk e cs2 q.1 q.2 ps hr with ⟨_, hch⟩ | ⟨_, ch2, hch⟩
            · rw [hch]
              rw [looseTight_two] at h
              have hhead := (Bool.and_eq_true _ _ ▸ h).1
              rw [looseTight_one]
              rcases Bool.or_eq_true _ _ ▸ hhead with h1 | h1
              · rw [h1]; rfl
              · have : c = ' ' := of_decide_eq_true (Bool.and_eq_true _ _ ▸ h1).1
                rw [this]
                simp
            · rw [hch]
              rw [hch] at hq1
              rw [looseTight_two]
              rw [looseTight_two] at h
              have hhead := (Bool.and_eq_true _ _ ▸ h).1
              rw [hhead, hq1]
              rfl
        · exact ihcs p (by rw [hr]; simp [hp2])

theorem mem_joinSp (l : List Str) (w : Str) (hw : w ∈ l) (c : Char) (hc : c ∈ w) :
    c ∈ joinSp l := by
  induction l with
  | nil => exact absurd hw (by simp)
  | cons x rest ih =>
    show c ∈ x ++ joinTail rest
    rcases List.mem_cons.mp hw with rfl | hw2
    · exact List.mem_append.mpr (Or.inl hc)
    · refine List.mem_append.mpr (Or.inr ?_)
      have hrec : c ∈ joinSp rest := ih hw2
      cases rest with
      | nil => exact absurd hw2 (by simp)
      | cons y rest2 =>
        show c ∈ ' ' :: (y ++ joinTail rest2)
        exact List.mem_cons.mpr (Or.inr hrec)

theorem mem_splits (s : Str) :
    (∀ c ∈ s, pyIsSpace c = false → ∃ w ∈ splitOut s, c ∈ w) ∧
    (∀ c ∈ s, pyIsSpace c = false →
      c ∈ (splitIn s).1 ∨ ∃ w ∈ (splitIn s).2, c ∈ w) := by
  induction s with
  | nil =>
    exact ⟨fun c hc _ => absurd hc (by simp), fun c hc _ => absurd hc (by simp)⟩
  | cons a as ih =>
    obtain ⟨ih1, ih2⟩ := ih
    by_cases ha : pyIsSpace a
    · constructor
      · intro c hc hns
        rw [splitOut_cons, if_pos ha]
        rcases List.mem_cons.mp hc with rfl | hc2
        · rw [ha] at hns; exact absurd hns (by decide)
        · exact ih1 c hc2 hns
      · intro c hc hns
        rw [splitIn_cons, if_pos ha]
        rcases List.mem_cons.mp hc with rfl | hc2
        · rw [ha] at hns; exact absurd hns (by decide)
        · exact Or.inr (ih1 c hc2 hns)
    · constructor
      · intro c hc hns
        rw [splitOut_cons, if_neg ha]
        rcases List.mem_cons.mp hc with rfl | hc2
        · exact ⟨c :: (splitIn as).1, by simp, by simp⟩
        · rcases ih2 c hc2 hns with hin | ⟨w, hw, hcw⟩
          · exact ⟨a :: (splitIn as).1, by simp, by simp [hin]⟩
          · exact ⟨w, by simp [hw], hcw⟩
      · intro c hc hns
        rw [splitIn_cons, if_neg ha]
        rcases List.mem_cons.mp hc with rfl | hc2
        · exact Or.inl (by simp)
        · rcases ih2 c hc2 hns with hin | ⟨w, hw, hcw⟩
          · exact Or.inl (by simp [hin])
          · exact Or.inr ⟨w, hw, hcw⟩

theorem mem_wsCollapse (t : Str) (c : Char) (hc : c ∈ t) (hns : pyIsSpace c = false) :
    c ∈ wsCollapse t := by
  obtain ⟨w, hw, hcw⟩ := (mem_splits t).1 c hc hns
  exact mem_joinSp (splitOut t) w hw c hcw

theorem dedupSeen_subset (seen l : List Str) : ∀ x ∈ dedupSeen seen l, x ∈ l := by
  induction l generalizing seen with
  | nil => intro x hx; exact absurd hx (by simp [dedupSeen])
  | cons y ys ih =>
    intro x hx
    unfold dedupSeen at hx
    by_cases hy : y ∈ seen
    · rw [if_pos hy] at hx
      exact List.mem_cons.mpr (Or.inr (ih seen x hx))
    · rw [if_neg hy] at hx
      rcases List.mem_cons.mp hx with rfl | hx2
      · simp
      · exact List.mem_cons.mpr (Or.inr (ih (y :: seen) x hx2))

theorem dedupSeen_nodup_avoid (seen l : List Str) :
    (dedupSeen seen l).Nodup ∧ ∀ x ∈ dedupSeen seen l, x ∉ seen := by
  induction l generalizing seen with
  | nil => exact ⟨List.nodup_nil, fun x hx => absurd hx (by simp [dedupSeen])⟩
  | cons y ys ih =>
    unfold dedupSeen
    by_cases hy : y ∈ seen
    · rw [if_pos hy]
      exact ih seen
    · rw [if_neg hy]
      obtain ⟨ihn, iha⟩ := ih (y :: seen)
      constructor
      · refine List.nodup_cons.mpr ⟨?_, ihn⟩
        intro hmem
        exact iha y hmem (by simp)
      · intro x hx
        rcases List.mem_cons.mp hx with rfl | hx2
        · exact hy
        · intro hxs
          exact iha x hx2 (by simp [hxs])

theorem dedupSeen_eq_self (seen l : List Str) (hnd : l.Nodup)
    (hav : ∀ x ∈ l, x ∉ seen) : dedupSeen seen l = l := by
  induction l generalizing seen with
  | nil => rfl
  | cons y ys ih =>
    unfold dedupSeen
    rw [if_neg (hav y (by simp))]
    obtain ⟨hy, hys⟩ := List.nodup_cons.mp hnd
    congr 1
    refine ih (y :: seen) hys ?_
    intro x hx
    intro hmem
    rcases List.mem_cons.mp hmem with rfl | hx2
    · exact hy hx
    · exact hav x (by simp [hx]) hx2

theorem dedupSeen_ne_nil (l : List Str) (h : l ≠ []) : dedupSeen [] l ≠ [] := by
  cases l with
  | nil => exact absurd rfl h
  | cons y ys =>
    unfold dedupSeen
    rw [if_neg (by simp)]
    simp

theorem tightRest_last_ns (s : Str) (h : tightRest s = true) (hne : s ≠ []) :
    pyIsSpace (s.getLastD ' ') = false := by
  induction s with
  | nil => exact absurd rfl hne
  | cons c cs ih =>
    cases cs with
    | nil =>
      by_cases hc : c = ' '
      · subst hc
        exact absurd h (by rw [tightRest_space_nil]; decide)
      · rw [tightRest_ns_cons c hc []] at h
        have := bnot_true _ (Bool.and_eq_true _ _ ▸ h).1
        simpa using this
    | cons d r =>
      rw [getLastD_cons_ne c (d :: r) (by simp) ' ' ' ']
      exact ih (tightRest_tail c (d :: r) h) (by simp)

/-- A tight chunk followed by one non-space character is a well-formed
sentence. -/
theorem sentOK_concat (b : Str) (hbt : tightStr b = true) (d : Char)
    (hd : pyIsSpace d = false) : sentOK (b ++ [d]) := by
  have hlastd : (b ++ [d]).getLastD ' ' = d := by
    rw [List.getLastD_eq_getLast?, List.getLast?_concat]
    rfl
  refine ⟨by simp, ?_, by rw [hlastd]; exact hd⟩
  cases b with
  | nil =>
    show tightStr [d] = true
    refine (tightStr_cons_iff d []).mpr ⟨hd, ?_⟩
    exact tightRest_cons_of_ne_space d [] hd rfl
  | cons c cs =>
    obtain ⟨hc, hrest⟩ := (tightStr_cons_iff c cs).mp hbt
    have hlast : pyIsSpace ((c :: cs).getLastD ' ') = false :=
      tightRest_last_ns (c :: cs) hrest (by simp)
    have happ : tightRest ((c :: cs) ++ [d]) = true :=
      tightRest_append (c :: cs) [d] hrest (Or.inr hlast)
        (tightRest_cons_of_ne_space d [] hd rfl)
    exact (tightStr_cons_iff c (cs ++ [d])).mpr ⟨hc, by simpa using happ⟩

/-- Re-parsing the joined sentence list reproduces it: each sentence is a
stripped terminator-free chunk followed by one terminator. -/
theorem parse_joinSp (l : List Str)
    (h : ∀ x ∈ l, ∃ b d, x = b ++ [d] ∧ isTerm d = true ∧
      (∀ c ∈ b, isTerm c = false) ∧ pyStrip b = b) :
    (parseSent (joinSp l)).1.map (fun p => pyStrip p.1 ++ [p.2]) = l ∧
    (parseSent (joinSp l)).2 = [] := by
  induction l with
  | nil => exact ⟨rfl, rfl⟩
  | cons x rest ih =>
    obtain ⟨b, d, hx, hd, hb, hsb⟩ := h x (by simp)
    cases rest with
    | nil =>
      have hjoin : joinSp [x] = b ++ d :: [] := by
        show x ++ joinTail [] = b ++ [d]
        rw [hx]
        simp [joinTail]
      rw [hjoin, parseSent_append b hb d hd []]
      constructor
      · show (pyStrip b ++ [d]) :: List.map _ (parseSent []).1 = [x]
        rw [hsb, ← hx]
        rfl
      · rfl
    | cons y rest2 =>
      have ihr := ih (fun z hz => h z (by simp [hz]))
      obtain ⟨ihm, ihrest⟩ := ihr
      have hjoin : joinSp (x :: y :: rest2) = b ++ d :: (' ' :: joinSp (y :: rest2)) := by
        show x ++ joinTail (y :: rest2) = _
        rw [hx]
        show (b ++ [d]) ++ (' ' :: (y ++ joinTail rest2)) = b ++ d :: (' ' :: (y ++ joinTail rest2))
        simp
      rw [hjoin, parseSent_append b hb d hd (' ' :: joinSp (y :: rest2))]
      cases hzp : (parseSent (joinSp (y :: rest2))).1 with
      | nil =>
        rw [hzp] at ihm
        exact absurd ihm (by simp)
      | cons q ps =>
        have hsp : isTerm ' ' = false := by decide
        rw [parseSent_cons_nt_cons ' ' (joinSp (y :: rest2)) hsp q.1 q.2 ps (by rw [hzp])]
        rw [hzp] at ihm
        have hfq : (pyStrip q.1 ++ [q.2]) :: List.map (fun p => pyStrip p.1 ++ [p.2]) ps =
            y :: rest2 := by
          simpa using ihm
        constructor
        · show (pyStrip b ++ [d]) ::
            (pyStrip (' ' :: q.1) ++ [q.2]) :: List.map (fun p => pyStrip p.1 ++ [p.2]) ps =
            x :: y :: rest2
          rw [hsb, ← hx, pyStrip_space_cons, hfq]
        · exact ihrest

theorem looseTight_of_tightStr (s : Str) (h : tightStr s = true) :
    looseTight s = true := by
  cases s with
  | nil => rfl
  | cons c cs =>
    exact looseTight_of_tightRest (c :: cs) ((tightStr_cons_iff c cs).mp h).2

/-- The cleaner is the identity on a joined list of well-formed, distinct
sentences. -/
theorem cleanAnn_fixed (l : List Str) (hne : l ≠ []) (hOK : ∀ x ∈ l, sentOK x)
    (hstruct : ∀ x ∈ l, ∃ b d, x = b ++ [d] ∧ isTerm d = true ∧
      (∀ c ∈ b, isTerm c = false) ∧ pyStrip b = b)
    (hnodup : l.Nodup) :
    cleanAnn (joinSp l) = joinSp l := by
  unfold cleanAnn
  rw [if_neg ((tight_joinSp l hOK).2 hne)]
  show joinSp (dedupSeen []
    ((parseSent (wsCollapse (joinSp l))).1.map (fun p => pyStrip p.1 ++ [p.2]))) = joinSp l
  rw [wsCollapse_eq_self _ (tight_joinSp l hOK).1]
  rw [(parse_joinSp l hstruct).1]
  rw [dedupSeen_eq_self [] l hnodup (fun x _ hx => by simp at hx)]

/-- C7 (amended): on every input containing at least one sentence
terminator (`.`, `!` or `?`), applying the annotation cleaner twice
produces the same result as applying it once.  (Without a terminator the
cleaner drops everything, and the empty result maps back to the
`"unknown"` sentinel, so idempotence fails there.) -/
theorem c7_cleanAnn_idem_on_terminated (t : Str) (h : t.any isTerm = true) :
    cleanAnn (cleanAnn t) = cleanAnn t := by
  have htne : t ≠ [] := by
    intro h0
    rw [h0] at h
    simp at h
  have hclean : cleanAnn t =
      joinSp (dedupSeen []
        ((parseSent (wsCollapse t)).1.map (fun p => pyStrip p.1 ++ [p.2]))) := by
    unfold cleanAnn
    rw [if_neg htne]
  have ht1any : (wsCollapse t).any isTerm = true := by
    obtain ⟨c, hct, hcterm⟩ := List.any_eq_true.mp h
    exact List.any_eq_true.mpr
      ⟨c, mem_wsCollapse t c hct (isTerm_not_space c hcterm), hcterm⟩
  have hpairs_ne : (parseSent (wsCollapse t)).1 ≠ [] :=
    parseSent_ne_nil_of_term (wsCollapse t) ht1any
  have hsentsAll_ne :
      (parseSent (wsCollapse t)).1.map (fun p => pyStrip p.1 ++ [p.2]) ≠ [] := by
    intro h0
    exact hpairs_ne (List.map_eq_nil_iff.mp h0)
  have hsents_ne : dedupSeen []
      ((parseSent (wsCollapse t)).1.map (fun p => pyStrip p.1 ++ [p.2])) ≠ [] :=
    dedupSeen_ne_nil _ hsentsAll_ne
  have hmem : ∀ x ∈ dedupSeen []
      ((parseSent (wsCollapse t)).1.map (fun p => pyStrip p.1 ++ [p.2])),
      ∃ p ∈ (parseSent (wsCollapse t)).1, x = pyStrip p.1 ++ [p.2] := by
    intro x hx
    have hx2 := dedupSeen_subset _ _ x hx
    obtain ⟨p, hp, hpx⟩ := List.mem_map.mp hx2
    exact ⟨p, hp, hpx.symm⟩
  have hstruct : ∀ x ∈ dedupSeen []
      ((parseSent (wsCollapse t)).1.map (fun p => pyStrip p.1 ++ [p.2])),
      ∃ b d, x = b ++ [d] ∧ isTerm d = true ∧
        (∀ c ∈ b, isTerm c = false) ∧ pyStrip b = b := by
    intro x hx
    obtain ⟨p, hp, hpx⟩ := hmem x hx
    refine ⟨pyStrip p.1, p.2, hpx, (parseSent_chunks (wsCollapse t) p hp).2, ?_,
      pyStrip_idem p.1⟩
    intro c hc
    exact (parseSent_chunks (wsCollapse t) p hp).1 c (pyStrip_subset p.1 c hc)
  have hOK : ∀ x ∈ dedupSeen []
      ((parseSent (wsCollapse t)).1.map (fun p => pyStrip p.1 ++ [p.2])), sentOK x := by
    intro x hx
    obtain ⟨p, hp, hpx⟩ := hmem x hx
    have hloose : looseTight p.1 = true :=
      parseSent_chunks_loose (wsCollapse t)
        (looseTight_of_tightStr (wsCollapse t) (tightStr_wsCollapse t)) p hp
    rw [hpx]
    exact sentOK_concat (pyStrip p.1) (tightStr_pyStrip_of_loose p.1 hloose) p.2
      (isTerm_not_space p.2 (parseSent_chunks (wsCollapse t) p hp).2)
  have hnodup : (dedupSeen []
      ((parseSent (wsCollapse t)).1.map (fun p => pyStrip p.1 ++ [p.2]))).Nodup :=
    (dedupSeen_nodup_avoid [] _).1
  rw [hclean]
  exact cleanAnn_fixed _ hsents_ne hOK hstruct hnodup

/-- C7 (corrected), counterexample: on `"hello"` (no sentence terminator)
one application of the cleaner gives `""` and a second gives
`"unknown"`. -/
theorem c7_idem_counterexample :
    cleanAnn (chs "hello") = [] ∧ cleanAnn (cleanAnn (chs "hello")) = chs "unknown" ∧
    cleanAnn (cleanAnn (chs "hello")) ≠ cleanAnn (chs "hello") := by
  refine ⟨by rfl, by rfl, ?_⟩
  intro h
  rw [show cleanAnn (cleanAnn (chs "hello")) = chs "unknown" from rfl,
    show cleanAnn (chs "hello") = [] from rfl] at h
  exact absurd h (by decide)

/-- Witness for C7: `"Привет. Привет. Мир."` contains terminators, and
the theorem applies (the cleaner deduplicates once and is then stable). -/
theorem c7_witness :
    cleanAnn (cleanAnn (chs "Привет. Привет. Мир.")) =
      cleanAnn (chs "Привет. Привет. Мир.") :=
  c7_cleanAnn_idem_on_terminated (chs "Привет. Привет. Мир.") (by decide)
